import Mathlib

/-!
Verification of the backup/restore pipeline of the `rusty-backup`
repository.  Filenames and other Rust `String` values are modelled as
lists of characters (`Str`), Rust `usize` values as `Nat`, timestamps as
`Nat`/`Int` tick counts.  Every definition is a shallow embedding of the
corresponding Rust function named in its doc comment.
-/

namespace RustyBackup

/-- Rust strings (filenames, templates, messages) are modelled as lists
of characters. -/
abbrev Str := List Char

/-! ## Compression and encryption extensions (src/configuration) -/

/-- The compression kinds of `enum Compression` in
`src/configuration/compression.rs`. -/
inductive Compression where
  | none
  | tar
  | tarBZ2
deriving DecidableEq

/-- Model of `Compression::to_extension_string`. -/
def Compression.toExtensionString : Compression → Str
  | .none => []
  | .tar => ".tar".data
  | .tarBZ2 => ".tar.bz2".data

/-- The fixed `.enc` extension of `Encryption::to_extension_string`
(src/configuration/encryption.rs). -/
def encExtension : Str := ".enc".data

/-- Model of the Rust idiom `if s.ends_with(ext) { s[..s.len() - ext.len()] } else { s }`
used for suffix stripping in `Destination::download_from_s3_to_tmp` and
`Destination::download_from_ssh_to_tmp`. -/
def stripSuffixIfPresent (ext s : Str) : Str :=
  if ext.isSuffixOf s then s.take (s.length - ext.length) else s

/-! ## Backup-side filename chain (src/backup/mod.rs) -/

/-- Filename produced by `Backup::tar_archive`:
`format!("{}.tar", archive_name)`. -/
def tarArchiveName (name : Str) : Str := name ++ ".tar".data

/-- Filename produced by `Backup::bz2_archive`:
`format!("{}.bz2", archive_name)`. -/
def bz2ArchiveName (name : Str) : Str := name ++ ".bz2".data

/-- Filename produced by `Encryption::encrypt_file` and recorded by the
`cloned_element.push_str(".enc")` bookkeeping in `Backup::start`. -/
def encArchiveName (f : Str) : Str := f ++ encExtension

/-- The `files_to_move_to_destination` list of `Backup::start` after the
compression and encryption stages, as a function of the resolved archive
name, the compression kind and whether encryption is configured:
for `Tar` the `.tar` file is pushed, for `TarBZ2` the `.bz2` of the
`.tar` file, for `None` nothing; when encryption is configured every
entry is replaced by its `.enc` counterpart. -/
def filesToMoveToDestination (comp : Compression) (enc : Bool) (name : Str) : List Str :=
  let base : List Str :=
    match comp with
    | .none => []
    | .tar => [tarArchiveName name]
    | .tarBZ2 => [bz2ArchiveName (tarArchiveName name)]
  if enc then base.map encArchiveName else base

/-- The suffix stripping at the end of
`Destination::download_from_s3_to_tmp` (src/configuration/destination.rs,
lines 267-279): first the encryption extension is stripped when
encryption is configured, then the compression extension. -/
def restoreBaseName (comp : Compression) (enc : Bool) (fname : Str) : Str :=
  let s := if enc then stripSuffixIfPresent encExtension fname else fname
  stripSuffixIfPresent comp.toExtensionString s

theorem stripSuffixIfPresent_append (s ext : Str) :
    stripSuffixIfPresent ext (s ++ ext) = s := by
  unfold stripSuffixIfPresent
  rw [if_pos (by exact List.isSuffixOf_iff_suffix.mpr ⟨s, rfl⟩)]
  rw [List.length_append]
  have h : s.length + ext.length - ext.length = s.length := by omega
  rw [h, List.take_left]

theorem restoreBaseName_roundtrip (comp : Compression) (enc : Bool) (name : Str) :
    restoreBaseName comp enc
      ((name ++ comp.toExtensionString) ++ (if enc then encExtension else [])) = name := by
  cases enc
  · show stripSuffixIfPresent comp.toExtensionString ((name ++ comp.toExtensionString) ++ []) = name
    rw [List.append_nil, stripSuffixIfPresent_append]
  · show stripSuffixIfPresent comp.toExtensionString
      (stripSuffixIfPresent encExtension ((name ++ comp.toExtensionString) ++ encExtension)) = name
    rw [stripSuffixIfPresent_append, stripSuffixIfPresent_append]

/-- C1: the backup pipeline appends suffixes in fixed
compress-then-encrypt order, producing `<name>.tar`, `<name>.tar.bz2`
and `[.enc]` last, and restore strips them in reverse order (`.enc`
first, then the compression extension), so stripping the suffixes of any
produced filename recovers the resolved base name for every compression
kind and encryption setting. -/
theorem backup_suffix_chain_roundtrip :
    ∀ (comp : Compression) (enc : Bool) (name : Str),
      (comp ≠ Compression.none →
        filesToMoveToDestination comp enc name =
          [(name ++ comp.toExtensionString) ++ (if enc then encExtension else [])]) ∧
      ∀ f ∈ filesToMoveToDestination comp enc name, restoreBaseName comp enc f = name := by
  intro comp enc name
  constructor
  · intro hne
    cases comp
    · exact absurd rfl hne
    · cases enc <;>
        simp [filesToMoveToDestination, tarArchiveName, encArchiveName,
          Compression.toExtensionString, List.append_assoc]
    · cases enc <;>
        simp [filesToMoveToDestination, tarArchiveName, bz2ArchiveName, encArchiveName,
          Compression.toExtensionString, List.append_assoc]
  · intro f hf
    have hrt := restoreBaseName_roundtrip comp enc name
    cases comp <;> cases enc <;>
      simp [filesToMoveToDestination, tarArchiveName, bz2ArchiveName, encArchiveName] at hf <;>
      subst hf <;>
      simpa [tarArchiveName, bz2ArchiveName, encArchiveName, encExtension,
        Compression.toExtensionString, List.append_assoc] using hrt

/-- Witness for C1: a concrete run with tar+bzip2 compression and
encryption enabled; stripping `daily.tar.bz2.enc` recovers `daily`. -/
theorem backup_suffix_chain_roundtrip_witness :
    restoreBaseName Compression.tarBZ2 true "daily.tar.bz2.enc".data = "daily".data :=
  (backup_suffix_chain_roundtrip Compression.tarBZ2 true "daily".data).2
    "daily.tar.bz2.enc".data (by decide)

/-! ## Name templates and placeholder replacement (src/backup/mod.rs,
src/restore/mod.rs) -/

/-- Model of `Regex::captures(name).is_some()` for a literal pattern:
does `pat` occur as a contiguous substring of `s`? -/
def containsSubstr (pat : Str) : Str → Bool
  | [] => pat.isEmpty
  | c :: rest => pat.isPrefixOf (c :: rest) || containsSubstr pat rest

/-- Model of `Regex::replace` for a literal pattern: replace the first
(leftmost) occurrence of `pat` in the string with `rep`; if `pat` does
not occur, return the string unchanged. -/
def replaceFirst (pat rep : Str) : Str → Str
  | [] => if pat.isEmpty then rep else []
  | c :: rest =>
    if pat.isPrefixOf (c :: rest) then rep ++ rest.drop (pat.length - 1)
    else c :: replaceFirst pat rep rest

/-- Model of `Regex::replace_all` for a literal pattern: replace every
non-overlapping leftmost occurrence of `pat` with `rep`. -/
def replaceAll (pat rep : Str) : Str → Str
  | [] => []
  | c :: rest =>
    if pat.isPrefixOf (c :: rest) then rep ++ replaceAll pat rep (rest.drop (pat.length - 1))
    else c :: replaceAll pat rep rest
termination_by s => s.length
decreasing_by
  · simp only [List.length_drop, List.length_cons]; omega
  · simp only [List.length_cons]; omega

/-- Inner text of the year placeholder regex `\{date:year\}`. -/
def yearInner : Str := "date:year".data

/-- Inner text of the month placeholder regex `\{date:month\}`. -/
def monthInner : Str := "date:month".data

/-- Inner text of the day placeholder regex `\{date:day\}`. -/
def dayInner : Str := "date:day".data

/-- Inner text of the weekday placeholder regex `\{date:weekday\}`. -/
def weekdayInner : Str := "date:weekday".data

/-- A brace-delimited placeholder, as matched by the literal regexes in
`Backup::build_real_archive_name` and
`Restore::build_possible_archive_names`. -/
def placeholderPat (inner : Str) : Str := '\x7b' :: (inner ++ ['\x7d'])

/-- The weekday renderings of `chrono::Weekday` (both `Display`, used on
the restore side, and `Debug`, used on the backup side, print these
three-letter names), Monday first. -/
def weekdayNames : List Str :=
  ["Mon".data, "Tue".data, "Wed".data, "Thu".data, "Fri".data, "Sat".data, "Sun".data]

/-- Model of `Restore::build_possible_archive_names`
(src/restore/mod.rs, lines 14-69): when the weekday placeholder occurs
in the template, push the seven replace-first expansions Monday..Sunday;
afterwards, if nothing was pushed, push the template verbatim. -/
def buildPossibleArchiveNames (name : Str) : List Str :=
  let names : List Str :=
    if containsSubstr (placeholderPat weekdayInner) name then
      weekdayNames.map (fun w => replaceFirst (placeholderPat weekdayInner) w name)
    else []
  if names.length = 0 then names ++ [name] else names

theorem replaceFirst_inj (pat r1 r2 : Str) :
    ∀ s : Str, containsSubstr pat s = true →
      replaceFirst pat r1 s = replaceFirst pat r2 s → r1 = r2 := by
  intro s
  induction s with
  | nil =>
    intro h he
    simp only [containsSubstr, List.isEmpty_iff] at h
    simpa [replaceFirst, h] using he
  | cons c rest ih =>
    intro h he
    by_cases hp : pat.isPrefixOf (c :: rest) = true
    · simp only [replaceFirst, hp, if_true] at he
      exact List.append_cancel_right he
    · simp only [containsSubstr, hp, Bool.false_or] at h
      simp only [replaceFirst, hp, Bool.false_eq_true, if_false, List.cons.injEq,
        true_and] at he
      exact ih h he

/-- C3: restore-side candidate generation returns exactly the seven
weekday expansions (Monday-first, all distinct) when the template
contains the weekday placeholder, returns the single-element list
containing the template verbatim otherwise (no other placeholder is
resolved), and always returns at least one candidate. -/
theorem build_possible_archive_names_spec :
    ∀ name : Str,
      (containsSubstr (placeholderPat weekdayInner) name = true →
        buildPossibleArchiveNames name =
          weekdayNames.map (fun w => replaceFirst (placeholderPat weekdayInner) w name) ∧
        (buildPossibleArchiveNames name).length = 7 ∧
        (buildPossibleArchiveNames name).Nodup) ∧
      (containsSubstr (placeholderPat weekdayInner) name = false →
        buildPossibleArchiveNames name = [name]) ∧
      1 ≤ (buildPossibleArchiveNames name).length := by
  intro name
  refine ⟨fun h => ⟨?_, ?_, ?_⟩, fun h => ?_, ?_⟩
  · simp [buildPossibleArchiveNames, h, weekdayNames]
  · simp [buildPossibleArchiveNames, h, weekdayNames]
  · have he : buildPossibleArchiveNames name =
        weekdayNames.map (fun w => replaceFirst (placeholderPat weekdayInner) w name) := by
      simp [buildPossibleArchiveNames, h, weekdayNames]
    rw [he]
    refine List.Nodup.map_on ?_ (by decide)
    intro x _ y _ hxy
    exact replaceFirst_inj (placeholderPat weekdayInner) x y name h hxy
  · simp [buildPossibleArchiveNames, h]
  · by_cases h : containsSubstr (placeholderPat weekdayInner) name = true <;>
      simp [buildPossibleArchiveNames, h, weekdayNames]

/-- Witness for C3: the template `weekly-{date:weekday}` yields exactly
seven distinct candidates, Monday first, while the literal template
`weekly` yields itself verbatim. -/
theorem build_possible_archive_names_witness :
    buildPossibleArchiveNames "weekly-\x7bdate:weekday\x7d".data =
      ["weekly-Mon".data, "weekly-Tue".data, "weekly-Wed".data, "weekly-Thu".data,
        "weekly-Fri".data, "weekly-Sat".data, "weekly-Sun".data] ∧
    buildPossibleArchiveNames "weekly".data = ["weekly".data] := by
  constructor
  · rw [((build_possible_archive_names_spec "weekly-\x7bdate:weekday\x7d".data).1
      (by decide)).1]
    decide
  · exact (build_possible_archive_names_spec "weekly".data).2.1 (by decide)

/-! ## Backup-side template resolution (`Backup::build_real_archive_name`) -/

/-- Decimal digit characters as printed by Rust integer formatting. -/
def digitChar : Nat → Char
  | 0 => '0'
  | 1 => '1'
  | 2 => '2'
  | 3 => '3'
  | 4 => '4'
  | 5 => '5'
  | 6 => '6'
  | 7 => '7'
  | 8 => '8'
  | 9 => '9'
  | _ => '*'

/-- Decimal digits of `n`, most significant first, as printed by Rust
`format!("{}", n)` for an unsigned integer. -/
def natDigits (n : Nat) : Str :=
  if n < 10 then [digitChar n]
  else natDigits (n / 10) ++ [digitChar (n % 10)]
decreasing_by exact Nat.div_lt_self (by omega) (by omega)

/-- Model of Rust `format!("{:0w$}", n)`: the decimal rendering of `n`
left-padded with zeros up to width `w`. -/
def padNum (w n : Nat) : Str :=
  List.replicate (w - (natDigits n).length) '0' ++ natDigits n

/-- The rendering of `chrono::Weekday` used by
`format!("{:?}", now.weekday())` in `Backup::build_real_archive_name`;
the `Debug` derivation prints the variant names `Mon`..`Sun`. -/
inductive Weekday where
  | mon
  | tue
  | wed
  | thu
  | fri
  | sat
  | sun
deriving DecidableEq

/-- Debug rendering of a `chrono::Weekday` value. -/
def Weekday.render : Weekday → Str
  | .mon => "Mon".data
  | .tue => "Tue".data
  | .wed => "Wed".data
  | .thu => "Thu".data
  | .fri => "Fri".data
  | .sat => "Sat".data
  | .sun => "Sun".data

/-- The fields of `chrono::Utc::now()` consumed by
`Backup::build_real_archive_name`. -/
structure UtcDate where
  year : Nat
  month : Nat
  day : Nat
  weekday : Weekday

/-- Model of `Backup::build_real_archive_name` (src/backup/mod.rs,
lines 33-64): replace-all of the four date placeholders against the
current date, in the fixed order year, month, day, weekday, with the
year zero-padded to width 4 and month/day zero-padded to width 2. -/
def buildRealArchiveName (now : UtcDate) (name : Str) : Str :=
  let n1 := replaceAll (placeholderPat yearInner) (padNum 4 now.year) name
  let n2 := replaceAll (placeholderPat monthInner) (padNum 2 now.month) n1
  let n3 := replaceAll (placeholderPat dayInner) (padNum 2 now.day) n2
  replaceAll (placeholderPat weekdayInner) now.weekday.render n3

/-- A string without brace characters: such text can never start or
contain a placeholder match. -/
def braceFree (s : Str) : Prop := '\x7b' ∉ s ∧ '\x7d' ∉ s

instance (s : Str) : Decidable (braceFree s) := by
  unfold braceFree
  infer_instance

/-- One token of an archive-name template: either a run of literal text
without braces, or a brace-delimited placeholder `{inner}`. -/
inductive TemplateTok where
  | lit (s : Str)
  | ph (inner : Str)
deriving DecidableEq

/-- The text of a template token. -/
def TemplateTok.render : TemplateTok → Str
  | .lit s => s
  | .ph inner => placeholderPat inner

/-- A well-formed token: literal runs and placeholder inners contain no
brace characters. -/
def TemplateTok.wf : TemplateTok → Prop
  | .lit s => braceFree s
  | .ph inner => braceFree inner

/-- The text of a template given by its tokens. -/
def renderTemplate (ts : List TemplateTok) : Str := (ts.map TemplateTok.render).flatten

instance : ∀ t : TemplateTok, Decidable t.wf
  | .lit s => inferInstanceAs (Decidable (braceFree s))
  | .ph inner => inferInstanceAs (Decidable (braceFree inner))

/-- A well-formed template: every token is well-formed. -/
def wfTemplate (ts : List TemplateTok) : Prop := ∀ t ∈ ts, t.wf

instance (ts : List TemplateTok) : Decidable (wfTemplate ts) := by
  unfold wfTemplate
  infer_instance

/-- Specified meaning of resolving the placeholder with inner text
`pinner` to the replacement `rep` on one token: the matching placeholder
becomes literal text `rep`; every other token is untouched. -/
def substTok (pinner rep : Str) : TemplateTok → TemplateTok
  | .lit s => .lit s
  | .ph inner => if inner = pinner then .lit rep else .ph inner

theorem renderTemplate_cons (t : TemplateTok) (ts : List TemplateTok) :
    renderTemplate (t :: ts) = t.render ++ renderTemplate ts := by
  simp [renderTemplate]

theorem replaceAll_cons_of_ne (pinner rep : Str) (c : Char) (hc : c ≠ '\x7b') (s : Str) :
    replaceAll (placeholderPat pinner) rep (c :: s) =
      c :: replaceAll (placeholderPat pinner) rep s := by
  have hbeq : ('\x7b' == c) = false := by
    rw [beq_eq_false_iff_ne]
    exact fun h => hc h.symm
  have hpre : (placeholderPat pinner).isPrefixOf (c :: s) = false := by
    rw [placeholderPat, List.isPrefixOf_cons₂, hbeq, Bool.false_and]
  simp only [replaceAll, hpre, Bool.false_eq_true, if_false]

theorem replaceAll_append_braceFree (pinner rep t : Str) :
    ∀ s : Str, '\x7b' ∉ s →
      replaceAll (placeholderPat pinner) rep (s ++ t) =
        s ++ replaceAll (placeholderPat pinner) rep t := by
  intro s
  induction s with
  | nil => intro _; simp
  | cons c cs ih =>
    intro hs
    simp only [List.mem_cons, not_or] at hs
    rw [List.cons_append, replaceAll_cons_of_ne pinner rep c (fun h => hs.1 h.symm) (cs ++ t),
      ih hs.2, List.cons_append]

theorem closed_isPrefixOf_closed (r : Str) :
    ∀ x y : Str, '\x7d' ∉ x → '\x7d' ∉ y →
      (x ++ ['\x7d']).isPrefixOf (y ++ '\x7d' :: r) = true → x = y := by
  intro x
  induction x with
  | nil =>
    intro y _ hy h
    cases y with
    | nil => rfl
    | cons c ys =>
      exfalso
      simp only [List.nil_append, List.cons_append, List.isPrefixOf_cons₂,
        Bool.and_eq_true, beq_iff_eq] at h
      have hy1 : ¬('\x7d' = c ∨ '\x7d' ∈ ys) := by simpa using hy
      exact hy1 (Or.inl h.1)
  | cons a xs ih =>
    intro y hx hy h
    cases y with
    | nil =>
      exfalso
      simp only [List.cons_append, List.nil_append, List.isPrefixOf_cons₂,
        Bool.and_eq_true, beq_iff_eq] at h
      have hx1 : ¬('\x7d' = a ∨ '\x7d' ∈ xs) := by simpa using hx
      exact hx1 (Or.inl h.1.symm)
    | cons c ys =>
      simp only [List.cons_append, List.isPrefixOf_cons₂, Bool.and_eq_true, beq_iff_eq] at h
      have hx1 : ¬('\x7d' = a ∨ '\x7d' ∈ xs) := by simpa using hx
      have hy1 : ¬('\x7d' = c ∨ '\x7d' ∈ ys) := by simpa using hy
      have hx2 : '\x7d' ∉ xs := fun hm => hx1 (Or.inr hm)
      have hy2 : '\x7d' ∉ ys := fun hm => hy1 (Or.inr hm)
      rw [h.1, ih ys hx2 hy2 h.2]

theorem not_isPrefixOf_other_placeholder (pinner inner r : Str) (hpi : braceFree pinner)
    (hin : braceFree inner) (hne : inner ≠ pinner) :
    (placeholderPat pinner).isPrefixOf (placeholderPat inner ++ r) = false := by
  cases hb : (placeholderPat pinner).isPrefixOf (placeholderPat inner ++ r) with
  | false => rfl
  | true =>
    exfalso
    rw [show placeholderPat inner ++ r = '\x7b' :: ((inner ++ ['\x7d']) ++ r) from by
      simp [placeholderPat]] at hb
    rw [placeholderPat, List.isPrefixOf_cons₂] at hb
    simp only [beq_self_eq_true, Bool.true_and] at hb
    rw [List.append_assoc, List.singleton_append] at hb
    exact hne (closed_isPrefixOf_closed r pinner inner hpi.2 hin.2 hb).symm

theorem replaceAll_placeholder_match (pinner rep r : Str) :
    replaceAll (placeholderPat pinner) rep (placeholderPat pinner ++ r) =
      rep ++ replaceAll (placeholderPat pinner) rep r := by
  have hpre : (placeholderPat pinner).isPrefixOf (placeholderPat pinner ++ r) = true :=
    List.isPrefixOf_iff_prefix.mpr (List.prefix_append _ _)
  have h1 : placeholderPat pinner ++ r = '\x7b' :: ((pinner ++ ['\x7d']) ++ r) := by
    simp [placeholderPat]
  rw [h1] at hpre
  rw [h1, replaceAll, if_pos hpre]
  have hlen : (placeholderPat pinner).length - 1 = (pinner ++ ['\x7d']).length := by
    rw [placeholderPat, List.length_cons]
    omega
  rw [hlen, List.drop_left]

theorem replaceAll_placeholder_skip (pinner rep inner r : Str) (hpi : braceFree pinner)
    (hin : braceFree inner) (hne : inner ≠ pinner) :
    replaceAll (placeholderPat pinner) rep (placeholderPat inner ++ r) =
      placeholderPat inner ++ replaceAll (placeholderPat pinner) rep r := by
  have hpre := not_isPrefixOf_other_placeholder pinner inner r hpi hin hne
  have h1 : placeholderPat inner ++ r = '\x7b' :: ((inner ++ ['\x7d']) ++ r) := by
    simp [placeholderPat]
  rw [h1] at hpre
  rw [h1, replaceAll, if_neg (fun hx => by rw [hx] at hpre; exact absurd hpre (by decide))]
  rw [List.append_assoc, List.singleton_append,
    replaceAll_append_braceFree pinner rep ('\x7d' :: r) inner hin.1,
    replaceAll_cons_of_ne pinner rep '\x7d' (by decide) r]
  simp [placeholderPat, List.append_assoc]

theorem replaceAll_renderTemplate (pinner rep : Str) (hpi : braceFree pinner) :
    ∀ ts : List TemplateTok, wfTemplate ts →
      replaceAll (placeholderPat pinner) rep (renderTemplate ts) =
        renderTemplate (ts.map (substTok pinner rep)) := by
  intro ts
  induction ts with
  | nil => intro _; simp [renderTemplate, replaceAll]
  | cons t ts ih =>
    intro hwf
    have hts : wfTemplate ts := fun u hu => hwf u (List.mem_cons_of_mem _ hu)
    have ht : t.wf := hwf t (List.mem_cons_self _ _)
    cases t with
    | lit s =>
      rw [renderTemplate_cons, List.map_cons, renderTemplate_cons]
      show replaceAll (placeholderPat pinner) rep (s ++ renderTemplate ts) =
        s ++ renderTemplate (ts.map (substTok pinner rep))
      rw [replaceAll_append_braceFree pinner rep (renderTemplate ts) s ht.1, ih hts]
    | ph inner =>
      rw [renderTemplate_cons, List.map_cons, renderTemplate_cons]
      by_cases hip : inner = pinner
      · subst hip
        show replaceAll (placeholderPat inner) rep (placeholderPat inner ++ renderTemplate ts) =
          (substTok inner rep (TemplateTok.ph inner)).render ++
            renderTemplate (ts.map (substTok inner rep))
        rw [replaceAll_placeholder_match, ih hts]
        simp [substTok, TemplateTok.render]
      · show replaceAll (placeholderPat pinner) rep (placeholderPat inner ++ renderTemplate ts) =
          (substTok pinner rep (TemplateTok.ph inner)).render ++
            renderTemplate (ts.map (substTok pinner rep))
        rw [replaceAll_placeholder_skip pinner rep inner (renderTemplate ts) hpi ht hip, ih hts]
        simp [substTok, TemplateTok.render, hip]

theorem digitChar_not_brace (m : Nat) :
    digitChar m ≠ '\x7b' ∧ digitChar m ≠ '\x7d' := by
  constructor <;> (unfold digitChar; split <;> decide)

theorem natDigits_not_brace (n : Nat) : '\x7b' ∉ natDigits n ∧ '\x7d' ∉ natDigits n := by
  induction n using Nat.strong_induction_on with
  | _ n ih =>
    rw [natDigits]
    by_cases h : n < 10
    · rw [if_pos h]
      constructor
      · intro hmem
        rw [List.mem_singleton] at hmem
        exact (digitChar_not_brace n).1 hmem.symm
      · intro hmem
        rw [List.mem_singleton] at hmem
        exact (digitChar_not_brace n).2 hmem.symm
    · rw [if_neg h]
      have hih := ih (n / 10) (Nat.div_lt_self (by omega) (by omega))
      constructor
      · intro hmem
        rcases List.mem_append.mp hmem with hm | hm
        · exact hih.1 hm
        · rw [List.mem_singleton] at hm
          exact (digitChar_not_brace (n % 10)).1 hm.symm
      · intro hmem
        rcases List.mem_append.mp hmem with hm | hm
        · exact hih.2 hm
        · rw [List.mem_singleton] at hm
          exact (digitChar_not_brace (n % 10)).2 hm.symm

theorem natDigits_length_le : ∀ k n : Nat, n < 10 ^ (k + 1) → (natDigits n).length ≤ k + 1 := by
  intro k
  induction k with
  | zero =>
    intro n hn
    rw [natDigits, if_pos (by simpa using hn)]
    simp
  | succ k ih =>
    intro n hn
    rw [natDigits]
    by_cases h : n < 10
    · rw [if_pos h]
      simp
    · rw [if_neg h, List.length_append]
      have hd : n / 10 < 10 ^ (k + 1) := by
        rw [Nat.div_lt_iff_lt_mul (by omega : 0 < 10)]
        calc n < 10 ^ (k + 1 + 1) := hn
          _ = 10 ^ (k + 1) * 10 := pow_succ 10 (k + 1)
      have hih := ih (n / 10) hd
      simp only [List.length_singleton]
      omega

theorem padNum_length (w n : Nat) (hw : 1 ≤ w) (hn : n < 10 ^ w) :
    (padNum w n).length = w := by
  have hle : (natDigits n).length ≤ w := by
    have h1 := natDigits_length_le (w - 1) n (by
      have : w - 1 + 1 = w := by omega
      rw [this]
      exact hn)
    omega
  rw [padNum, List.length_append, List.length_replicate]
  omega

theorem padNum_braceFree (w n : Nat) : braceFree (padNum w n) := by
  constructor
  · intro hmem
    rcases List.mem_append.mp hmem with hm | hm
    · exact absurd (List.eq_of_mem_replicate hm) (by decide)
    · exact (natDigits_not_brace n).1 hm
  · intro hmem
    rcases List.mem_append.mp hmem with hm | hm
    · exact absurd (List.eq_of_mem_replicate hm) (by decide)
    · exact (natDigits_not_brace n).2 hm

theorem weekday_render_braceFree (w : Weekday) : braceFree w.render := by
  cases w <;> decide

theorem wfTemplate_map_subst (pinner rep : Str) (hrep : braceFree rep) :
    ∀ ts : List TemplateTok, wfTemplate ts → wfTemplate (ts.map (substTok pinner rep)) := by
  intro ts hwf u hu
  rcases List.mem_map.mp hu with ⟨t, ht, rfl⟩
  have hwt := hwf t ht
  cases t with
  | lit s => exact hwt
  | ph inner =>
    by_cases hip : inner = pinner
    · simpa [substTok, hip, TemplateTok.wf] using hrep
    · simpa [substTok, hip, TemplateTok.wf] using hwt

/-- The combined effect of `Backup::build_real_archive_name` on one
template token: the four known placeholders become literal text (the
zero-padded year/month/day and the weekday name), all other tokens are
left untouched. -/
def resolveTok (now : UtcDate) (t : TemplateTok) : TemplateTok :=
  substTok weekdayInner now.weekday.render
    (substTok dayInner (padNum 2 now.day)
      (substTok monthInner (padNum 2 now.month)
        (substTok yearInner (padNum 4 now.year) t)))

/-- C4: for every well-formed template and every current date, the
backup-side resolve replaces every placeholder occurrence — the year
placeholder with the 4-digit zero-padded year, month and day with
2-digit zero-padded values, the weekday placeholder with the weekday
name — while leaving all other text (including unknown placeholders)
unchanged, and a template with only literal text is returned
unchanged. -/
theorem build_real_archive_name_spec :
    ∀ (now : UtcDate) (ts : List TemplateTok), wfTemplate ts →
      buildRealArchiveName now (renderTemplate ts) = renderTemplate (ts.map (resolveTok now)) ∧
      (now.year < 10000 → (padNum 4 now.year).length = 4) ∧
      (now.month < 100 → (padNum 2 now.month).length = 2) ∧
      (now.day < 100 → (padNum 2 now.day).length = 2) ∧
      ((∀ t ∈ ts, ∃ s, t = TemplateTok.lit s) →
        buildRealArchiveName now (renderTemplate ts) = renderTemplate ts) := by
  intro now ts hwf
  have hby : braceFree yearInner := by decide
  have hbm : braceFree monthInner := by decide
  have hbd : braceFree dayInner := by decide
  have hbw : braceFree weekdayInner := by decide
  have hwf1 := wfTemplate_map_subst yearInner (padNum 4 now.year) (padNum_braceFree 4 now.year)
    ts hwf
  have hwf2 := wfTemplate_map_subst monthInner (padNum 2 now.month) (padNum_braceFree 2 now.month)
    _ hwf1
  have hwf3 := wfTemplate_map_subst dayInner (padNum 2 now.day) (padNum_braceFree 2 now.day)
    _ hwf2
  have hmain : buildRealArchiveName now (renderTemplate ts) =
      renderTemplate (ts.map (resolveTok now)) := by
    rw [buildRealArchiveName]
    rw [replaceAll_renderTemplate yearInner (padNum 4 now.year) hby ts hwf]
    rw [replaceAll_renderTemplate monthInner (padNum 2 now.month) hbm _ hwf1]
    rw [replaceAll_renderTemplate dayInner (padNum 2 now.day) hbd _ hwf2]
    rw [replaceAll_renderTemplate weekdayInner now.weekday.render hbw _ hwf3]
    rw [List.map_map, List.map_map, List.map_map]
    rfl
  refine ⟨hmain, ?_, ?_, ?_, ?_⟩
  · intro hy
    exact padNum_length 4 now.year (by omega) (by norm_num; omega)
  · intro hm
    exact padNum_length 2 now.month (by omega) (by norm_num; omega)
  · intro hd
    exact padNum_length 2 now.day (by omega) (by norm_num; omega)
  · intro hlit
    rw [hmain]
    have hid : ∀ t ∈ ts, resolveTok now t = t := by
      intro t ht
      rcases hlit t ht with ⟨s, rfl⟩
      rfl
    rw [List.map_congr_left hid]
    simp

/-- Witness for C4: a concrete date and the template
`daily-{date:year}-{date:month}-{date:day}`; every hypothesis of the
specification theorem is discharged on this input. -/
theorem build_real_archive_name_spec_witness :
    buildRealArchiveName ⟨2024, 3, 7, Weekday.thu⟩
        (renderTemplate [TemplateTok.lit "daily-".data, TemplateTok.ph yearInner,
          TemplateTok.lit "-".data, TemplateTok.ph monthInner, TemplateTok.lit "-".data,
          TemplateTok.ph dayInner]) =
      renderTemplate ([TemplateTok.lit "daily-".data, TemplateTok.ph yearInner,
          TemplateTok.lit "-".data, TemplateTok.ph monthInner, TemplateTok.lit "-".data,
          TemplateTok.ph dayInner].map (resolveTok ⟨2024, 3, 7, Weekday.thu⟩)) ∧
      (padNum 4 2024).length = 4 ∧ (padNum 2 3).length = 2 ∧ (padNum 2 7).length = 2 := by
  have h := build_real_archive_name_spec ⟨2024, 3, 7, Weekday.thu⟩
    [TemplateTok.lit "daily-".data, TemplateTok.ph yearInner,
      TemplateTok.lit "-".data, TemplateTok.ph monthInner, TemplateTok.lit "-".data,
      TemplateTok.ph dayInner] (by decide)
  exact ⟨h.1, h.2.1 (by decide), h.2.2.1 (by decide), h.2.2.2.1 (by decide)⟩

/-! ## Restore locate for local-directory destinations (src/restore/mod.rs) -/

/-- The configuration fields of an `Archive` consumed by
`Restore::get_newest_archive_name_in_directory`: the destination path,
the compression kind and whether encryption is configured. -/
structure RestoreArchiveCfg where
  destPath : Str
  comp : Compression
  enc : Bool

/-- The candidate filename `format!("{}/{}{}", directory, name, comp_ext)`
with the encryption extension pushed when encryption is configured. -/
def fullArchiveFilename (a : RestoreArchiveCfg) (name : Str) : Str :=
  (a.destPath ++ "/".data ++ name ++ a.comp.toExtensionString) ++
    (if a.enc then encExtension else [])

/-- One iteration of the loop in
`Restore::get_newest_archive_name_in_directory`: `fs` returns the
filesystem creation time of a path (`None` when `fs::metadata` fails or
the metadata exposes no creation time, both of which the loop skips); a
strictly newer creation time replaces the current best candidate. -/
def newestStep (fs : Str → Option Nat) (a : RestoreArchiveCfg)
    (acc : Option (Str × Nat)) (name : Str) : Option (Str × Nat) :=
  match fs (fullArchiveFilename a name) with
  | Option.none => acc
  | Option.some created =>
    match acc with
    | Option.none => some (name, created)
    | Option.some best => if created > best.2 then some (name, created) else some best

/-- Model of `Restore::get_newest_archive_name_in_directory`
(src/restore/mod.rs, lines 71-108). -/
def getNewestArchiveNameInDirectory (fs : Str → Option Nat) (names : List Str)
    (a : RestoreArchiveCfg) : Option Str :=
  (names.foldl (newestStep fs a) Option.none).map Prod.fst

/-- Outcome of processing one archive in `Restore::start`. -/
inductive RestoreStepResult where
  | skipped
  | restored (name : Str)
  | failed (msg : Str)
deriving DecidableEq

/-- Model of the `DestinationKind::Directory` arm of `Restore::start`
(src/restore/mod.rs, lines 114-152): expand the template into
candidates, locate the newest matching file, and skip the archive when
none is found; the decrypt and decompress outcomes of the remaining
stages are oracle parameters. -/
def restoreDirectoryArchive (fs : Str → Option Nat) (a : RestoreArchiveCfg) (template : Str)
    (decryptOk decompressOk : Bool) : RestoreStepResult :=
  match getNewestArchiveNameInDirectory fs (buildPossibleArchiveNames template) a with
  | Option.none => .skipped
  | Option.some n =>
    if a.enc && !decryptOk then .failed "decryption error".data
    else if !decompressOk then .failed "decompression error".data
    else .restored n

theorem newest_foldl_spec (fs : Str → Option Nat) (a : RestoreArchiveCfg) :
    ∀ (names : List Str) (acc : Option (Str × Nat)),
      (names.foldl (newestStep fs a) acc = Option.none →
        acc = Option.none ∧ ∀ n ∈ names, fs (fullArchiveFilename a n) = Option.none) ∧
      (∀ p : Str × Nat, names.foldl (newestStep fs a) acc = some p →
        (acc = some p ∨ (p.1 ∈ names ∧ fs (fullArchiveFilename a p.1) = some p.2)) ∧
        (∀ m ∈ names, ∀ u : Nat, fs (fullArchiveFilename a m) = some u → u ≤ p.2) ∧
        (∀ q : Str × Nat, acc = some q → q.2 ≤ p.2)) := by
  intro names
  induction names with
  | nil =>
    intro acc
    constructor
    · intro h
      exact ⟨h, by simp⟩
    · intro p hp
      simp only [List.foldl_nil] at hp
      refine ⟨Or.inl hp, ?_, ?_⟩
      · intro m hm
        simp at hm
      · intro q hq
        have hpq : Option.some p = some q := hp.symm.trans hq
        injection hpq with h
        rw [← h]
  | cons m rest ih =>
    intro acc
    have hstep := ih (newestStep fs a acc m)
    constructor
    · intro h
      rw [List.foldl_cons] at h
      have h1 := hstep.1 h
      have h2 : acc = Option.none ∧ fs (fullArchiveFilename a m) = Option.none := by
        have hs := h1.1
        unfold newestStep at hs
        cases hfs : fs (fullArchiveFilename a m) with
        | none =>
          rw [hfs] at hs
          exact ⟨hs, rfl⟩
        | some c =>
          rw [hfs] at hs
          cases hacc : acc with
          | none =>
            rw [hacc] at hs
            simp at hs
          | some b =>
            rw [hacc] at hs
            by_cases hgt : c > b.2 <;> simp [hgt] at hs
      refine ⟨h2.1, ?_⟩
      intro n hn
      rcases List.mem_cons.mp hn with rfl | hn2
      · exact h2.2
      · exact h1.2 n hn2
    · intro p hp
      rw [List.foldl_cons] at hp
      rcases hstep.2 p hp with ⟨horig, hmax, haccle⟩
      cases hfs : fs (fullArchiveFilename a m) with
      | none =>
        have hstepid : newestStep fs a acc m = acc := by
          unfold newestStep
          rw [hfs]
        rw [hstepid] at horig haccle
        refine ⟨?_, ?_, haccle⟩
        · rcases horig with h | h
          · exact Or.inl h
          · exact Or.inr ⟨List.mem_cons_of_mem _ h.1, h.2⟩
        · intro n hn u hu
          rcases List.mem_cons.mp hn with rfl | hn2
          · rw [hfs] at hu
            cases hu
          · exact hmax n hn2 u hu
      | some c =>
        have hstepval : (acc = Option.none ∧ newestStep fs a acc m = some (m, c)) ∨
            (∃ b, acc = some b ∧ c > b.2 ∧ newestStep fs a acc m = some (m, c)) ∨
            (∃ b, acc = some b ∧ ¬ c > b.2 ∧ newestStep fs a acc m = some b) := by
          unfold newestStep
          rw [hfs]
          cases hacc : acc with
          | none => exact Or.inl ⟨rfl, rfl⟩
          | some b =>
            by_cases hgt : c > b.2
            · exact Or.inr (Or.inl ⟨b, rfl, hgt, by simp [hgt]⟩)
            · exact Or.inr (Or.inr ⟨b, rfl, hgt, by simp [hgt]⟩)
        have hcle : c ≤ p.2 := by
          rcases hstepval with ⟨_, hv⟩ | ⟨b, _, _, hv⟩ | ⟨b, _, hng, hv⟩
          · exact haccle (m, c) hv
          · exact haccle (m, c) hv
          · have hb : b.2 ≤ p.2 := haccle b hv
            omega
        refine ⟨?_, ?_, ?_⟩
        · rcases horig with h | h
          · rcases hstepval with ⟨hacc0, hv⟩ | ⟨b, hacc0, hgt, hv⟩ | ⟨b, hacc0, hng, hv⟩
            · have : Option.some (m, c) = some p := hv.symm.trans h
              injection this with hmc
              exact Or.inr ⟨by rw [← hmc]; exact List.mem_cons_self _ _, by rw [← hmc]; exact hfs⟩
            · have : Option.some (m, c) = some p := hv.symm.trans h
              injection this with hmc
              exact Or.inr ⟨by rw [← hmc]; exact List.mem_cons_self _ _, by rw [← hmc]; exact hfs⟩
            · have : Option.some b = some p := hv.symm.trans h
              injection this with hb
              exact Or.inl (by rw [hacc0, hb])
          · exact Or.inr ⟨List.mem_cons_of_mem _ h.1, h.2⟩
        · intro n hn u hu
          rcases List.mem_cons.mp hn with rfl | hn2
          · rw [hfs] at hu
            injection hu with hcu
            omega
          · exact hmax n hn2 u hu
        · intro q hq
          rcases hstepval with ⟨hacc0, _⟩ | ⟨b, hacc0, hgt, hv⟩ | ⟨b, hacc0, _, hv⟩
          · rw [hacc0] at hq
            cases hq
          · have hbq : Option.some b = some q := hacc0.symm.trans hq
            injection hbq with hb
            have h2 : c ≤ p.2 := haccle (m, c) hv
            rw [← hb]
            omega
          · have hbq : Option.some b = some q := hacc0.symm.trans hq
            injection hbq with hb
            have h2 : b.2 ≤ p.2 := haccle b hv
            rw [← hb]
            exact h2

theorem newest_foldl_congr (fs fs2 : Str → Option Nat) (a : RestoreArchiveCfg) :
    ∀ (names : List Str) (acc : Option (Str × Nat)),
      (∀ n ∈ names, fs (fullArchiveFilename a n) = fs2 (fullArchiveFilename a n)) →
      names.foldl (newestStep fs a) acc = names.foldl (newestStep fs2 a) acc := by
  intro names
  induction names with
  | nil =>
    intro acc _
    rfl
  | cons m rest ih =>
    intro acc hag
    rw [List.foldl_cons, List.foldl_cons]
    have hm : newestStep fs a acc m = newestStep fs2 a acc m := by
      unfold newestStep
      rw [hag m (List.mem_cons_self _ _)]
    rw [hm, ih _ (fun n hn => hag n (List.mem_cons_of_mem _ hn))]

/-- C2: for a local-directory destination, the locate step considers
exactly the files `<destination-path>/<candidate><compression-ext>[<enc-ext>]`
over the restore candidates (the selected candidate is one of them and
the result depends only on those files), selects the candidate whose
file has the newest creation time, and when no candidate file exists the
archive is skipped without the run failing. -/
theorem get_newest_archive_name_spec :
    ∀ (fs : Str → Option Nat) (names : List Str) (a : RestoreArchiveCfg),
      (∀ n, getNewestArchiveNameInDirectory fs names a = some n →
        n ∈ names ∧ ∃ t, fs (fullArchiveFilename a n) = some t ∧
          ∀ m ∈ names, ∀ u, fs (fullArchiveFilename a m) = some u → u ≤ t) ∧
      ((∀ n ∈ names, fs (fullArchiveFilename a n) = Option.none) →
        getNewestArchiveNameInDirectory fs names a = Option.none) ∧
      (∀ template dOk xOk, (∀ n ∈ buildPossibleArchiveNames template,
          fs (fullArchiveFilename a n) = Option.none) →
        restoreDirectoryArchive fs a template dOk xOk = RestoreStepResult.skipped) ∧
      (∀ fs2 : Str → Option Nat,
        (∀ n ∈ names, fs (fullArchiveFilename a n) = fs2 (fullArchiveFilename a n)) →
        getNewestArchiveNameInDirectory fs names a =
          getNewestArchiveNameInDirectory fs2 names a) := by
  intro fs names a
  have hnone : ∀ (nms : List Str), (∀ n ∈ nms, fs (fullArchiveFilename a n) = Option.none) →
      getNewestArchiveNameInDirectory fs nms a = Option.none := by
    intro nms hall
    unfold getNewestArchiveNameInDirectory
    cases hr : nms.foldl (newestStep fs a) Option.none with
    | none => rfl
    | some p =>
      rcases ((newest_foldl_spec fs a nms Option.none).2 p hr).1 with h | h
      · cases h
      · rw [hall p.1 h.1] at h
        cases h.2
  refine ⟨?_, hnone names, ?_, ?_⟩
  · intro n hn
    unfold getNewestArchiveNameInDirectory at hn
    cases hr : names.foldl (newestStep fs a) Option.none with
    | none =>
      rw [hr] at hn
      cases hn
    | some p =>
      rw [hr] at hn
      injection hn with hn1
      rcases (newest_foldl_spec fs a names Option.none).2 p hr with ⟨horig, hmax, _⟩
      rcases horig with h | h
      · cases h
      · rw [← hn1]
        exact ⟨h.1, p.2, h.2, hmax⟩
  · intro template dOk xOk hall
    unfold restoreDirectoryArchive
    rw [hnone (buildPossibleArchiveNames template) hall]
  · intro fs2 hag
    unfold getNewestArchiveNameInDirectory
    rw [newest_foldl_congr fs fs2 a names Option.none hag]

/-- A concrete locate scenario: archive configuration with destination
path `/backups`, tar compression and no encryption. -/
def scenarioCfg : RestoreArchiveCfg := ⟨"/backups".data, Compression.tar, false⟩

/-- A concrete filesystem for the locate scenario: `weekly-Mon.tar`
created at time 1 and `weekly-Tue.tar` created later, at time 2; no
other file exists. -/
def scenarioFs : Str → Option Nat := fun s =>
  if s = "/backups/weekly-Mon.tar".data then some 1
  else if s = "/backups/weekly-Tue.tar".data then some 2
  else Option.none

/-- Witness for C2: with candidates from `weekly-{date:weekday}` and the
two files `weekly-Mon.tar` (older) and `weekly-Tue.tar` (newer), the
resolver selects `weekly-Tue`, whose creation time dominates all
candidates. -/
theorem get_newest_archive_name_spec_witness :
    "weekly-Tue".data ∈ buildPossibleArchiveNames "weekly-\x7bdate:weekday\x7d".data ∧
    ∃ t, scenarioFs (fullArchiveFilename scenarioCfg "weekly-Tue".data) = some t ∧
      ∀ m ∈ buildPossibleArchiveNames "weekly-\x7bdate:weekday\x7d".data,
        ∀ u, scenarioFs (fullArchiveFilename scenarioCfg m) = some u → u ≤ t :=
  (get_newest_archive_name_spec scenarioFs
      (buildPossibleArchiveNames "weekly-\x7bdate:weekday\x7d".data) scenarioCfg).1
    "weekly-Tue".data (by decide)

/-! ## Progress statistics (src/helper/mod.rs) -/

/-- The fields of `ProgressStats`; instants are modelled as second
counts, `Instant::sub` between instants as truncated subtraction. -/
structure ProgressStats where
  totalLength : Option Nat
  progressedSize : Nat
  finished : Bool
  startTime : Nat
  timeSeries : List (Nat × Nat)
deriving DecidableEq

/-- Model of `ProgressStats::new` at start instant `t0`. -/
def ProgressStats.fresh (t0 : Nat) : ProgressStats := ⟨Option.none, 0, false, t0, []⟩

/-- The eviction loop shared by `add_progressed_size` and
`set_progressed_size`: pop samples older than 10 seconds from the front
of the queue, stopping at the first sample that is not older. -/
def evictOld (now : Nat) : List (Nat × Nat) → List (Nat × Nat)
  | [] => []
  | sample :: rest => if now - sample.1 > 10 then evictOld now rest else sample :: rest

/-- Model of `ProgressStats::add_progressed_size` called at instant
`now`: add the delta, push the sample at the back, then evict stale
samples from the front. -/
def ProgressStats.addProgressedSize (s : ProgressStats) (now size : Nat) : ProgressStats :=
  { s with progressedSize := s.progressedSize + size,
           timeSeries := evictOld now (s.timeSeries ++ [(now, size)]) }

/-- Model of `ProgressStats::set_progressed_size` called at instant
`now`: the delta is the unsigned subtraction `size - progressed_size`,
which panics (modelled as `None`, with the overflow check of Rust
unsigned arithmetic) when `size` is below the current progressed
size. -/
def ProgressStats.setProgressedSize (s : ProgressStats) (now size : Nat) :
    Option ProgressStats :=
  if size < s.progressedSize then Option.none
  else
    some { s with progressedSize := size,
                  timeSeries := evictOld now (s.timeSeries ++ [(now, size - s.progressedSize)]) }

/-- One loop iteration of `get_average_speed_for_last_x_seconds`:
samples older than `secs` seconds are skipped; otherwise the sample's
bytes are accumulated and the first retained sample's instant is
remembered. -/
def speedLoop (now secs : Nat) (acc : Nat × Option Nat) (sample : Nat × Nat) :
    Nat × Option Nat :=
  if now - sample.1 > secs then acc
  else
    (acc.1 + sample.2,
      match acc.2 with
      | Option.none => some sample.1
      | Option.some t => some t)

/-- Model of `ProgressStats::get_average_speed_for_last_x_seconds`
(src/helper/mod.rs, lines 112-142). -/
def ProgressStats.getAverageSpeedForLastXSeconds (s : ProgressStats) (now secs : Nat) : Nat :=
  let r := s.timeSeries.foldl (speedLoop now secs) (0, Option.none)
  let lastSeconds :=
    match r.2 with
    | Option.some t => if now - t = 0 then 1 else now - t
    | Option.none => secs
  r.1 / lastSeconds

theorem evictOld_fresh (now : Nat) :
    ∀ l : List (Nat × Nat), l.Pairwise (fun p q => p.1 ≤ q.1) →
      ∀ p ∈ evictOld now l, now - p.1 ≤ 10 := by
  intro l
  induction l with
  | nil =>
    intro _ p hp
    simp [evictOld] at hp
  | cons a rest ih =>
    intro hpw p hp
    rw [evictOld] at hp
    rcases List.pairwise_cons.mp hpw with ⟨hhead, htail⟩
    by_cases h : now - a.1 > 10
    · rw [if_pos h] at hp
      exact ih htail p hp
    · rw [if_neg h] at hp
      rcases List.mem_cons.mp hp with rfl | hp2
      · omega
      · have := hhead p hp2
        omega

theorem addProgressedSize_cumulative :
    ∀ (trace : List (Nat × Nat)) (s : ProgressStats),
      (trace.foldl (fun st p => st.addProgressedSize p.1 p.2) s).progressedSize =
        s.progressedSize + (trace.map Prod.snd).sum := by
  intro trace
  induction trace with
  | nil =>
    intro s
    simp
  | cons p rest ih =>
    intro s
    rw [List.foldl_cons, ih]
    simp [ProgressStats.addProgressedSize]
    omega

theorem speedLoop_bytes (now secs : Nat) :
    ∀ (l : List (Nat × Nat)) (acc : Nat × Option Nat),
      (l.foldl (speedLoop now secs) acc).1 =
        acc.1 + ((l.filter (fun p => now - p.1 ≤ secs)).map Prod.snd).sum := by
  intro l
  induction l with
  | nil =>
    intro acc
    simp
  | cons p rest ih =>
    intro acc
    rw [List.foldl_cons]
    by_cases h : now - p.1 > secs
    · have hstep : speedLoop now secs acc p = acc := by
        unfold speedLoop
        rw [if_pos h]
      have hnot : ¬ now - p.1 ≤ secs := by omega
      have hfilter : (p :: rest).filter (fun q => now - q.1 ≤ secs) =
          rest.filter (fun q => now - q.1 ≤ secs) := by
        rw [List.filter_cons]
        simp [hnot]
      rw [hstep, hfilter]
      exact ih acc
    · have hstep : (speedLoop now secs acc p).1 = acc.1 + p.2 := by
        unfold speedLoop
        rw [if_neg h]
      have hin : now - p.1 ≤ secs := by omega
      have hfilter : (p :: rest).filter (fun q => now - q.1 ≤ secs) =
          p :: rest.filter (fun q => now - q.1 ≤ secs) := by
        rw [List.filter_cons]
        simp [hin]
      rw [ih (speedLoop now secs acc p), hstep, hfilter]
      simp
      omega

/-- C9: `progressed_size` never decreases under `add_progressed_size`
and always equals the cumulative total of all recorded deltas (window
eviction never changes it), the ring buffer retains no sample older than
10 seconds after an add (for time-ordered samples), and samples older
than the window are excluded from the windowed speed computation. -/
theorem progress_stats_window_spec :
    ∀ (s : ProgressStats) (now size secs t0 : Nat) (trace : List (Nat × Nat)),
      (s.addProgressedSize now size).progressedSize = s.progressedSize + size ∧
      s.progressedSize ≤ (s.addProgressedSize now size).progressedSize ∧
      (trace.foldl (fun st p => st.addProgressedSize p.1 p.2)
          (ProgressStats.fresh t0)).progressedSize = (trace.map Prod.snd).sum ∧
      (s.timeSeries.Pairwise (fun p q => p.1 ≤ q.1) → (∀ p ∈ s.timeSeries, p.1 ≤ now) →
        ∀ p ∈ (s.addProgressedSize now size).timeSeries, now - p.1 ≤ 10) ∧
      ((s.timeSeries.foldl (speedLoop now secs) (0, Option.none)).1 =
        ((s.timeSeries.filter (fun p => now - p.1 ≤ secs)).map Prod.snd).sum) ∧
      (∀ p0 : Nat × Nat, now - p0.1 > secs →
        ProgressStats.getAverageSpeedForLastXSeconds
            ⟨s.totalLength, s.progressedSize, s.finished, s.startTime, p0 :: s.timeSeries⟩
            now secs =
          s.getAverageSpeedForLastXSeconds now secs) := by
  intro s now size secs t0 trace
  refine ⟨rfl, by simp [ProgressStats.addProgressedSize], ?_, ?_, ?_, ?_⟩
  · rw [addProgressedSize_cumulative trace (ProgressStats.fresh t0)]
    simp [ProgressStats.fresh]
  · intro hpw hle p hp
    have hpw2 : (s.timeSeries ++ [(now, size)]).Pairwise (fun p q => p.1 ≤ q.1) := by
      rw [List.pairwise_append]
      refine ⟨hpw, by simp, ?_⟩
      intro a ha b hb
      rw [List.mem_singleton] at hb
      rw [hb]
      exact hle a ha
    exact evictOld_fresh now (s.timeSeries ++ [(now, size)]) hpw2 p hp
  · simpa using speedLoop_bytes now secs s.timeSeries (0, Option.none)
  · intro p0 h0
    unfold ProgressStats.getAverageSpeedForLastXSeconds
    have hstep : speedLoop now secs (0, Option.none) p0 = (0, Option.none) := by
      unfold speedLoop
      rw [if_pos h0]
    rw [List.foldl_cons, hstep]

/-- Witness for C9: a concrete stats value with two samples inside and
one sample outside the 10-second window. -/
theorem progress_stats_window_spec_witness :
    ((⟨Option.none, 7, false, 0, [(1, 3), (12, 4)]⟩ : ProgressStats).addProgressedSize
        20 5).progressedSize = 12 ∧
    (∀ p ∈ ((⟨Option.none, 7, false, 0, [(1, 3), (12, 4)]⟩ : ProgressStats).addProgressedSize
        20 5).timeSeries, 20 - p.1 ≤ 10) ∧
    (([((5 : Nat), (3 : Nat)), (8, 4)].foldl
        (fun st p => ProgressStats.addProgressedSize st p.1 p.2)
        (ProgressStats.fresh 0)).progressedSize = 7) := by
  have h := progress_stats_window_spec ⟨Option.none, 7, false, 0, [(1, 3), (12, 4)]⟩
    20 5 10 0 [((5 : Nat), (3 : Nat)), (8, 4)]
  exact ⟨h.1, h.2.2.2.1 (by decide) (by decide), h.2.2.1⟩

/-- C10: `set_progressed_size` is total exactly when its argument is at
least the current progressed size; a strictly smaller argument makes the
unsigned subtraction `size - progressed_size` underflow, so the
operation panics (modelled as `None`) instead of returning. -/
theorem set_progressed_size_partiality :
    ∀ (s : ProgressStats) (now size : Nat),
      (size < s.progressedSize → s.setProgressedSize now size = Option.none) ∧
      (s.progressedSize ≤ size → ∃ s2, s.setProgressedSize now size = some s2 ∧
        s2.progressedSize = size) := by
  intro s now size
  constructor
  · intro h
    unfold ProgressStats.setProgressedSize
    rw [if_pos h]
  · intro h
    unfold ProgressStats.setProgressedSize
    rw [if_neg (by omega)]
    exact ⟨_, rfl, rfl⟩

/-- Witness for C10: setting the progressed size from 5 down to 3 panics
while setting it up to 8 succeeds. -/
theorem set_progressed_size_partiality_witness :
    (⟨Option.none, 5, false, 0, []⟩ : ProgressStats).setProgressedSize 1 3 = Option.none ∧
    ∃ s2, (⟨Option.none, 5, false, 0, []⟩ : ProgressStats).setProgressedSize 1 8 = some s2 ∧
      s2.progressedSize = 8 :=
  ⟨(set_progressed_size_partiality ⟨Option.none, 5, false, 0, []⟩ 1 3).1 (by decide),
    (set_progressed_size_partiality ⟨Option.none, 5, false, 0, []⟩ 1 8).2 (by decide)⟩

/-! ## Archive construction: the database loop of `Backup::tar_archive`
(src/backup/mod.rs, lines 300-398) -/

/-- A database entry as consumed by `tar_archive`: its dump filename is
fixed by `Database::build_dump_filename`. -/
structure Db where
  dumpFilename : Str
deriving DecidableEq

/-- Outcomes of the dump/append operations for one database, as
observed by `tar_archive`: whether `File::create(db_filename)` succeeds,
whether the dump command spawns and can be waited on, its exit code
(`None` when the process was killed by a signal), and whether the
open/append/remove steps on the dump file succeed. -/
structure DbEnv where
  createOk : Bool
  spawnOk : Bool
  waitOk : Bool
  exitCode : Option Int
  openOk : Bool
  appendOk : Bool
  removeOk : Bool
deriving DecidableEq

/-- Outcome of `tar_archive`: a normal return carrying the list of
files appended into the tar and the dump files left on disk, a returned
`Err` (the `return Err(...)` paths), or a process panic (the final
`.unwrap()` on the per-database result chain). -/
inductive TarOutcome where
  | finished (tarred : List Str) (dumpsLeft : List Str)
  | errored (msg : Str)
  | panicked (msg : Str)
deriving DecidableEq

/-- Result of the `Result` chain for one database in `tar_archive`
before the trailing `.unwrap()`. -/
inductive DbStep where
  | ok (appended : Bool) (dumpLeft : Bool)
  | err (msg : Str)
deriving DecidableEq

/-- The per-database `Result` chain of `tar_archive`
(`File::create(..).and_then(spawn).map_err(..).and_then(wait).and_then(match exit code ...)`),
before the trailing `.unwrap()`: a failure to create the dump file,
spawn or wait yields the mapped command error; exit code 0 leads to
open/append/remove of the dump file where each failure yields an `Err`;
any other (or missing) exit code yields `Ok` with the dump file left in
place. -/
def dbStep (db : Db) (e : DbEnv) : DbStep :=
  if ¬ (e.createOk && e.spawnOk && e.waitOk) then .err "error while executing command".data
  else
    match e.exitCode with
    | Option.some k =>
      if k = 0 then
        if ¬ e.openOk then .err ("unable to open sql file: ".data ++ db.dumpFilename)
        else if ¬ e.appendOk then
          .err ("tar.append_file: unable to append directory: ".data ++ db.dumpFilename)
        else if ¬ e.removeOk then
          .err ("unable to remove sql file: ".data ++ db.dumpFilename)
        else .ok true false
      else .ok false true
    | Option.none => .ok false true

/-- The database loop of `tar_archive`: each database's result chain is
`.unwrap()`-ed, so an `Err` in the chain aborts the whole process with a
panic (it is not returned as a build error); an `Ok` accumulates the
appended file and any dump file left in place. -/
def tarDbLoop : List (Db × DbEnv) → List Str → List Str → TarOutcome
  | [], tarred, left => .finished tarred left
  | (db, e) :: rest, tarred, left =>
    match dbStep db e with
    | .err msg => .panicked msg
    | .ok appended dumpLeft =>
      tarDbLoop rest (tarred ++ if appended then [db.dumpFilename] else [])
        (left ++ if dumpLeft then [db.dumpFilename] else [])

/-- Model of `Backup::tar_archive`: creating the tar container or
appending a directory fails with a returned error; the database loop
then runs as `tarDbLoop`. The directory phase is summarised by the
oracle list `dirsOk` of per-directory append outcomes. -/
def tarArchive (createTarOk : Bool) (dirsOk : List (Str × Bool)) (dbs : List (Db × DbEnv)) :
    TarOutcome :=
  if ¬ createTarOk then .errored "unable to create file".data
  else
    match dirsOk.find? (fun d => ¬ d.2) with
    | Option.some d =>
      .errored ("tar.append_dir_all: unable to append directory: ".data ++ d.1)
    | Option.none => tarDbLoop dbs [] []

/-- C5 (amended): for each database the dump output file is appended
into the tar and then deleted exactly when the dump exits with code 0
(with the open/append/remove steps succeeding); a non-zero or missing
exit code is treated as success with no append — the partial dump file
is left in place and the loop continues to the next database; but a
failure to open the dump file or append it into the tar aborts the whole
build by panicking the process (the per-database result chain ends in
`.unwrap()`), not by returning a build error. -/
theorem tar_archive_db_loop_spec :
    ∀ (db : Db) (e : DbEnv) (rest : List (Db × DbEnv)) (tarred left : List Str),
      (e.createOk = true → e.spawnOk = true → e.waitOk = true → e.exitCode = some 0 →
        e.openOk = true → e.appendOk = true → e.removeOk = true →
        tarDbLoop ((db, e) :: rest) tarred left =
          tarDbLoop rest (tarred ++ [db.dumpFilename]) left) ∧
      (e.createOk = true → e.spawnOk = true → e.waitOk = true → e.exitCode ≠ some 0 →
        tarDbLoop ((db, e) :: rest) tarred left =
          tarDbLoop rest tarred (left ++ [db.dumpFilename])) ∧
      (e.createOk = true → e.spawnOk = true → e.waitOk = true → e.exitCode = some 0 →
        (e.openOk = false ∨ e.appendOk = false) →
        (∃ msg, tarDbLoop ((db, e) :: rest) tarred left = TarOutcome.panicked msg) ∧
        ∀ msg, tarDbLoop ((db, e) :: rest) tarred left ≠ TarOutcome.errored msg) := by
  intro db e rest tarred left
  refine ⟨?_, ?_, ?_⟩
  · intro h1 h2 h3 h4 h5 h6 h7
    simp [tarDbLoop, dbStep, h1, h2, h3, h4, h5, h6, h7]
  · intro h1 h2 h3 hne
    cases hk : e.exitCode with
    | none => simp [tarDbLoop, dbStep, h1, h2, h3, hk]
    | some k =>
      have hkne : ¬ k = 0 := by
        intro h0
        exact hne (by rw [hk, h0])
      simp [tarDbLoop, dbStep, h1, h2, h3, hk, hkne]
  · intro h1 h2 h3 h4 hfail
    have hres : ∃ msg, tarDbLoop ((db, e) :: rest) tarred left = TarOutcome.panicked msg := by
      rcases hfail with h5 | h6
      · exact ⟨"unable to open sql file: ".data ++ db.dumpFilename,
          by simp [tarDbLoop, dbStep, h1, h2, h3, h4, h5]⟩
      · cases h5 : e.openOk with
        | false =>
          exact ⟨"unable to open sql file: ".data ++ db.dumpFilename,
            by simp [tarDbLoop, dbStep, h1, h2, h3, h4, h5]⟩
        | true =>
          exact ⟨"tar.append_file: unable to append directory: ".data ++ db.dumpFilename,
            by simp [tarDbLoop, dbStep, h1, h2, h3, h4, h5, h6]⟩
    rcases hres with ⟨m, hm⟩
    refine ⟨⟨m, hm⟩, ?_⟩
    intro msg hmsg
    rw [hm] at hmsg
    exact TarOutcome.noConfusion hmsg

/-- Witness for C5 (amended): a database dumping with exit code 0 is
appended and its dump file removed; a database with exit code 1 is not
appended and its partial dump file stays while the loop continues. -/
theorem tar_archive_db_loop_spec_witness :
    tarDbLoop [(⟨"a.sql".data⟩, ⟨true, true, true, some 0, true, true, true⟩),
        (⟨"b.sql".data⟩, ⟨true, true, true, some 1, true, true, true⟩)] [] [] =
      TarOutcome.finished ["a.sql".data] ["b.sql".data] := by
  rw [(tar_archive_db_loop_spec ⟨"a.sql".data⟩ ⟨true, true, true, some 0, true, true, true⟩
    [(⟨"b.sql".data⟩, ⟨true, true, true, some 1, true, true, true⟩)] [] []).1
    rfl rfl rfl rfl rfl rfl rfl]
  rw [(tar_archive_db_loop_spec ⟨"b.sql".data⟩ ⟨true, true, true, some 1, true, true, true⟩
    [] (([] : List Str) ++ [(⟨"a.sql".data⟩ : Db).dumpFilename]) []).2.1
    rfl rfl rfl (by decide)]
  decide

/-- Counterexample for C5: with one database whose dump exits 0 but
whose dump file cannot be opened, `tar_archive` panics at the
`.unwrap()` — the outcome is a panic and is not a returned build
error. -/
theorem tar_archive_open_failure_panics :
    tarArchive true [] [(⟨"db.sql".data⟩, ⟨true, true, true, some 0, false, true, true⟩)] =
      TarOutcome.panicked ("unable to open sql file: db.sql".data) ∧
    ∀ msg, tarArchive true []
        [(⟨"db.sql".data⟩, ⟨true, true, true, some 0, false, true, true⟩)] ≠
      TarOutcome.errored msg := by
  have hval : tarArchive true [] [(⟨"db.sql".data⟩, ⟨true, true, true, some 0, false, true, true⟩)] =
      TarOutcome.panicked ("unable to open sql file: db.sql".data) := by decide
  refine ⟨hval, ?_⟩
  intro msg hmsg
  rw [hval] at hmsg
  exact TarOutcome.noConfusion hmsg

/-! ## Store phase of `Backup::start` (src/backup/mod.rs, lines 126-233) -/

/-- Final outcome of the store phase for one archive: normal return,
a returned run error (`return Err(..)`), or a process panic (one of the
`.unwrap()` calls in the secure-copy arm fired). -/
inductive StoreOutcome where
  | ok
  | fatalErr (msg : Str)
  | panicked
deriving DecidableEq

/-- Result of a store phase: its outcome, the files whose loop
iteration completed (the loop proceeded past them), and the local files
removed from the working directory. -/
structure StoreRun where
  outcome : StoreOutcome
  attempted : List Str
  deletedLocal : List Str
deriving DecidableEq

/-- Oracle outcomes of the `DestinationKind::Directory` arm: directory
creation, per-file `fs::rename`, the `fs::copy` fallback and the
`fs::remove_file` after a successful copy. -/
structure DirStoreEnv where
  createDirOk : Bool
  renameOk : Str → Bool
  copyOk : Str → Bool
  removeOk : Str → Bool

/-- The per-file loop of the `DestinationKind::Directory` arm: a rename
moves the file; on rename failure a copy is attempted (the remove of the
source after a successful copy is best-effort, its failure ignored); if
both rename and copy fail the whole run returns an error. -/
def directoryStoreLoop (env : DirStoreEnv) : List Str → List Str → List Str → StoreRun
  | [], att, del => ⟨.ok, att, del⟩
  | f :: rest, att, del =>
    if env.renameOk f then directoryStoreLoop env rest (att ++ [f]) (del ++ [f])
    else if env.copyOk f then
      directoryStoreLoop env rest (att ++ [f]) (if env.removeOk f then del ++ [f] else del)
    else ⟨.fatalErr ("unable to rename and copy ".data ++ f), att, del⟩

/-- Model of the `DestinationKind::Directory` arm of the store phase. -/
def directoryStore (env : DirStoreEnv) (files : List Str) : StoreRun :=
  if ¬ env.createDirOk then ⟨.fatalErr "unable to create archive_path".data, [], []⟩
  else directoryStoreLoop env files [] []

/-- Oracle outcomes of the `DestinationKind::S3` arm: per-file
`fs::metadata` and `put_object`. -/
structure S3StoreEnv where
  metadataOk : Str → Bool
  putOk : Str → Bool

/-- The per-file loop of the `DestinationKind::S3` arm: a metadata
failure is logged and the loop continues; a `put_object` failure is
logged and the loop continues with the local file left in place; a
successful upload deletes the local file. -/
def s3StoreLoop (env : S3StoreEnv) : List Str → List Str → List Str → StoreRun
  | [], att, del => ⟨.ok, att, del⟩
  | f :: rest, att, del =>
    if env.metadataOk f then
      if env.putOk f then s3StoreLoop env rest (att ++ [f]) (del ++ [f])
      else s3StoreLoop env rest (att ++ [f]) del
    else s3StoreLoop env rest (att ++ [f]) del

/-- Model of the `DestinationKind::S3` arm of the store phase. -/
def s3Store (env : S3StoreEnv) (files : List Str) : StoreRun := s3StoreLoop env files [] []

/-- Oracle outcomes of the `DestinationKind::SSH` arm: session set-up
(`TcpStream::connect`, handshake, password auth — all `.unwrap()`-ed)
and the per-file `fs::metadata`, `scp_send`, local `File::open`, the
read/write transfer loop and the remote close — all but `fs::metadata`
are `.unwrap()`-ed. -/
structure SshStoreEnv where
  connectOk : Bool
  handshakeOk : Bool
  authOk : Bool
  metadataOk : Str → Bool
  scpSendOk : Str → Bool
  openOk : Str → Bool
  transferOk : Str → Bool
  closeOk : Str → Bool

/-- The per-file loop of the `DestinationKind::SSH` arm: a metadata
failure is logged and the loop continues; every other failure panics the
process via `.unwrap()`; an uploaded file is never deleted locally. -/
def sshStoreLoop (env : SshStoreEnv) : List Str → List Str → StoreRun
  | [], att => ⟨.ok, att, []⟩
  | f :: rest, att =>
    if ¬ env.metadataOk f then sshStoreLoop env rest (att ++ [f])
    else if ¬ env.scpSendOk f then ⟨.panicked, att, []⟩
    else if ¬ env.openOk f then ⟨.panicked, att, []⟩
    else if ¬ env.transferOk f then ⟨.panicked, att, []⟩
    else if ¬ env.closeOk f then ⟨.panicked, att, []⟩
    else sshStoreLoop env rest (att ++ [f])

/-- Model of the `DestinationKind::SSH` arm of the store phase. -/
def sshStore (env : SshStoreEnv) (files : List Str) : StoreRun :=
  if ¬ (env.connectOk && env.handshakeOk && env.authOk) then ⟨.panicked, [], []⟩
  else sshStoreLoop env files []

theorem s3StoreLoop_spec (env : S3StoreEnv) :
    ∀ (files att del : List Str),
      s3StoreLoop env files att del =
        ⟨StoreOutcome.ok, att ++ files,
          del ++ files.filter (fun g => env.metadataOk g && env.putOk g)⟩ := by
  intro files
  induction files with
  | nil =>
    intro att del
    simp [s3StoreLoop]
  | cons f rest ih =>
    intro att del
    by_cases hm : env.metadataOk f
    · by_cases hp : env.putOk f
      · rw [s3StoreLoop, if_pos hm, if_pos hp, ih]
        simp [List.filter_cons, hm, hp]
      · rw [s3StoreLoop, if_pos hm, if_neg hp, ih]
        simp [List.filter_cons, hm, hp]
    · rw [s3StoreLoop, if_neg hm, ih]
      simp [List.filter_cons, hm]

/-- C6 (amended): a local-directory store failure (rename and copy both
fail) is fatal to the whole run via a returned error and the remaining
files are not processed; an object-store store failure for a file is
non-fatal — the run outcome is ok, every file is attempted, and exactly
the successfully uploaded files are deleted locally (a failed upload
leaves the file in place); for secure-copy only the local metadata
lookup failure is non-fatal — a transfer failure (scp_send and the
subsequent unwrapped steps) panics the process, so the loop does not
proceed to the next file. -/
theorem store_phase_failure_asymmetry :
    ∀ (denv : DirStoreEnv) (senv : S3StoreEnv) (xenv : SshStoreEnv) (f : Str)
      (files rest att del : List Str),
      (denv.renameOk f = false → denv.copyOk f = false →
        directoryStoreLoop denv (f :: rest) att del =
          ⟨StoreOutcome.fatalErr ("unable to rename and copy ".data ++ f), att, del⟩) ∧
      ((s3Store senv files).outcome = StoreOutcome.ok ∧
        (s3Store senv files).attempted = files ∧
        (s3Store senv files).deletedLocal =
          files.filter (fun g => senv.metadataOk g && senv.putOk g)) ∧
      (xenv.metadataOk f = false →
        sshStoreLoop xenv (f :: rest) att = sshStoreLoop xenv rest (att ++ [f])) ∧
      (xenv.metadataOk f = true → xenv.scpSendOk f = false →
        sshStoreLoop xenv (f :: rest) att = ⟨StoreOutcome.panicked, att, []⟩) := by
  intro denv senv xenv f files rest att del
  refine ⟨?_, ?_, ?_, ?_⟩
  · intro hr hc
    rw [directoryStoreLoop, if_neg (by simp [hr]), if_neg (by simp [hc])]
  · rw [s3Store, s3StoreLoop_spec senv files [] []]
    exact ⟨rfl, by simp, by simp⟩
  · intro hm
    rw [sshStoreLoop, if_pos (by simp [hm])]
  · intro hm hs
    rw [sshStoreLoop, if_neg (by simp [hm]), if_pos (by simp [hs])]

/-- A directory-arm oracle where every rename and copy fails. -/
def dirFailEnv : DirStoreEnv := ⟨true, fun _ => false, fun _ => false, fun _ => true⟩

/-- An object-store oracle where the upload of `x.tar` fails and every
other upload succeeds. -/
def s3PartialEnv : S3StoreEnv := ⟨fun _ => true, fun f => ! (f == "x.tar".data)⟩

/-- A secure-copy oracle where every local metadata lookup fails. -/
def sshSkipEnv : SshStoreEnv :=
  ⟨true, true, true, fun _ => false, fun _ => true, fun _ => true, fun _ => true, fun _ => true⟩

/-- Witness for C6 (amended): the directory arm aborts at the first
failing file leaving the rest unprocessed; the object-store arm stays ok
and keeps the failed upload on disk while deleting the successful one;
the secure-copy arm continues past a metadata failure. -/
theorem store_phase_failure_asymmetry_witness :
    directoryStoreLoop dirFailEnv ("a.tar".data :: ["b.tar".data]) [] [] =
      ⟨StoreOutcome.fatalErr ("unable to rename and copy ".data ++ "a.tar".data), [], []⟩ ∧
    (s3Store s3PartialEnv ["x.tar".data, "y.tar".data]).outcome = StoreOutcome.ok ∧
    (s3Store s3PartialEnv ["x.tar".data, "y.tar".data]).deletedLocal =
      ["x.tar".data, "y.tar".data].filter
        (fun g => s3PartialEnv.metadataOk g && s3PartialEnv.putOk g) ∧
    sshStoreLoop sshSkipEnv ("a.tar".data :: []) [] =
      sshStoreLoop sshSkipEnv [] ([] ++ ["a.tar".data]) := by
  have h := store_phase_failure_asymmetry dirFailEnv s3PartialEnv sshSkipEnv "a.tar".data
    ["x.tar".data, "y.tar".data] ["b.tar".data] [] []
  refine ⟨h.1 rfl rfl, h.2.1.1, h.2.1.2.2, ?_⟩
  have h2 := store_phase_failure_asymmetry dirFailEnv s3PartialEnv sshSkipEnv "a.tar".data
    ["x.tar".data, "y.tar".data] [] [] []
  exact h2.2.2.1 rfl

/-- Counterexample for C6: a secure-copy transfer failure (`scp_send`
returns `Err`, so its `.unwrap()` fires) panics the run instead of
being logged and skipped — the loop does not proceed to the second
file, contradicting the claim that secure-copy store failures are
non-fatal. -/
theorem ssh_store_failure_is_fatal :
    sshStore ⟨true, true, true, fun _ => true, fun f => ! (f == "f1.tar".data),
        fun _ => true, fun _ => true, fun _ => true⟩ ["f1.tar".data, "f2.tar".data] =
      ⟨StoreOutcome.panicked, [], []⟩ ∧
    (sshStore ⟨true, true, true, fun _ => true, fun f => ! (f == "f1.tar".data),
        fun _ => true, fun _ => true, fun _ => true⟩
        ["f1.tar".data, "f2.tar".data]).outcome ≠ StoreOutcome.ok ∧
    "f2.tar".data ∉ (sshStore ⟨true, true, true, fun _ => true,
        fun f => ! (f == "f1.tar".data), fun _ => true, fun _ => true, fun _ => true⟩
        ["f1.tar".data, "f2.tar".data]).attempted := by
  decide

/-! ## Intermediate-file lifecycle of `Backup::start` on the success
path (src/backup/mod.rs, lines 66-237) -/

/-- Destination kinds of `enum Kind` in
`src/configuration/destination.rs`. -/
inductive DestKind where
  | directory
  | s3
  | ssh
  | none
deriving DecidableEq

/-- Create a file in the working directory. -/
def createFile (fs : List Str) (f : Str) : List Str := fs ++ [f]

/-- Remove a file from the working directory (by `fs::rename` away,
the upload pool's delete, or `fs::remove_file`). -/
def removeFile (fs : List Str) (f : Str) : List Str := fs.filter (fun g => ! (g == f))

/-- The working-directory contents after `Backup::start` processes one
archive on the all-success path: the tar stage creates `<name>.tar`, the
bzip2 stage creates `<name>.tar.bz2` and records the `.tar` as a
temporary file, encryption creates the `.enc` siblings (the inputs
stay on disk) and redirects `files_to_move_to_destination` to them, the
directory arm renames the files away, the object-store arm deletes them
after upload, the secure-copy and none arms leave them, and the final
loop removes the recorded temporary files. -/
def backupArchiveSuccessFiles (comp : Compression) (enc : Bool) (dest : DestKind)
    (name : Str) : List Str :=
  let fs0 : List Str := []
  let stage1 :=
    match comp with
    | .none => (fs0, ([] : List Str), ([] : List Str))
    | .tar => (createFile fs0 (tarArchiveName name), [tarArchiveName name], ([] : List Str))
    | .tarBZ2 =>
      (createFile (createFile fs0 (tarArchiveName name)) (bz2ArchiveName (tarArchiveName name)),
        [bz2ArchiveName (tarArchiveName name)], [tarArchiveName name])
  let fs1 := stage1.1
  let toMove1 := stage1.2.1
  let temps := stage1.2.2
  let fs2 := if enc then toMove1.foldl (fun fs f => createFile fs (encArchiveName f)) fs1 else fs1
  let toMove2 := if enc then toMove1.map encArchiveName else toMove1
  let fs3 :=
    match dest with
    | .directory => toMove2.foldl removeFile fs2
    | .s3 => toMove2.foldl removeFile fs2
    | .ssh => fs2
    | .none => fs2
  temps.foldl removeFile fs3

/-- The intermediate files named by the claim: the `.tar` of the
tar+bzip2 chain and, when encryption is configured, every
pre-encryption input file. -/
def intermediateFiles (comp : Compression) (enc : Bool) (name : Str) : List Str :=
  (if comp = Compression.tarBZ2 then [tarArchiveName name] else []) ++
    (if enc then filesToMoveToDestination comp false name else [])

/-- The intermediate files still present in the working directory after
the run. -/
def orphanIntermediates (comp : Compression) (enc : Bool) (dest : DestKind)
    (name : Str) : List Str :=
  (backupArchiveSuccessFiles comp enc dest name).filter
    (fun g => g ∈ intermediateFiles comp enc name)

/-- C7 (amended): on the all-success path, every intermediate file is
consumed or deleted — except when encryption is configured: the
pre-encryption input (`<name>.tar` for tar, `<name>.tar.bz2` for
tar+bzip2) is never deleted and remains as an orphan in the working
directory for every destination kind, while the recorded `.tar`
temporary of the tar+bzip2 chain is still deleted. -/
theorem backup_intermediate_lifecycle :
    ∀ (comp : Compression) (enc : Bool) (dest : DestKind) (name : Str),
      orphanIntermediates comp enc dest name =
        if enc = true ∧ comp ≠ Compression.none then [name ++ comp.toExtensionString] else [] := by
  intro comp enc dest name
  have hne : ∀ u v : Str, u ≠ v → ¬ (name ++ u = name ++ v) :=
    fun u v huv he => huv (List.append_cancel_left he)
  have hbeq : ∀ u v : Str, u ≠ v → (name ++ u == name ++ v) = false := by
    intro u v huv
    rw [beq_eq_false_iff_ne]
    exact hne u v huv
  have b1 := hbeq ['.', 't', 'a', 'r'] ['.', 't', 'a', 'r', '.', 'e', 'n', 'c'] (by decide)
  have b2 := hbeq ['.', 't', 'a', 'r', '.', 'b', 'z', '2'] ['.', 't', 'a', 'r'] (by decide)
  have b3 := hbeq ['.', 't', 'a', 'r']
    ['.', 't', 'a', 'r', '.', 'b', 'z', '2', '.', 'e', 'n', 'c'] (by decide)
  have b4 := hbeq ['.', 't', 'a', 'r', '.', 'b', 'z', '2']
    ['.', 't', 'a', 'r', '.', 'b', 'z', '2', '.', 'e', 'n', 'c'] (by decide)
  have b5 := hbeq ['.', 't', 'a', 'r', '.', 'b', 'z', '2', '.', 'e', 'n', 'c']
    ['.', 't', 'a', 'r'] (by decide)
  have b6 := hbeq ['.', 't', 'a', 'r', '.', 'e', 'n', 'c'] ['.', 't', 'a', 'r'] (by decide)
  have n1 := hne ['.', 't', 'a', 'r', '.', 'b', 'z', '2'] ['.', 't', 'a', 'r'] (by decide)
  have n2 := hne ['.', 't', 'a', 'r', '.', 'b', 'z', '2', '.', 'e', 'n', 'c']
    ['.', 't', 'a', 'r'] (by decide)
  have n3 := hne ['.', 't', 'a', 'r', '.', 'b', 'z', '2', '.', 'e', 'n', 'c']
    ['.', 't', 'a', 'r', '.', 'b', 'z', '2'] (by decide)
  have n4 := hne ['.', 't', 'a', 'r', '.', 'e', 'n', 'c'] ['.', 't', 'a', 'r'] (by decide)
  have n5 := hne ['.', 't', 'a', 'r'] ['.', 't', 'a', 'r', '.', 'b', 'z', '2'] (by decide)
  cases comp <;> cases enc <;> cases dest <;>
    simp [orphanIntermediates, backupArchiveSuccessFiles, intermediateFiles, createFile,
      removeFile, filesToMoveToDestination, tarArchiveName, bz2ArchiveName, encArchiveName,
      encExtension, Compression.toExtensionString, List.filter_cons, List.filter,
      List.append_assoc, b1, b2, b3, b4, b5, b6, n1, n2, n3, n4, n5]

/-- Witness for C7 (amended): without encryption the tar+bzip2 chain to
a directory destination leaves no orphan; with encryption the `.tar.bz2`
remains. -/
theorem backup_intermediate_lifecycle_witness :
    orphanIntermediates Compression.tarBZ2 false DestKind.directory "x".data = [] ∧
    orphanIntermediates Compression.tarBZ2 true DestKind.directory "x".data =
      ["x.tar.bz2".data] := by
  have h1 := backup_intermediate_lifecycle Compression.tarBZ2 false DestKind.directory "x".data
  have h2 := backup_intermediate_lifecycle Compression.tarBZ2 true DestKind.directory "x".data
  constructor
  · simpa using h1
  · rw [h2]
    decide

/-- Counterexample for C7: with tar compression, encryption and a
local-directory destination, the all-success run leaves the
pre-encryption `<name>.tar` in the working directory — an orphan
intermediate file. -/
theorem backup_orphan_intermediate_exists :
    orphanIntermediates Compression.tar true DestKind.directory "x".data = ["x.tar".data] ∧
    "x.tar".data ∈ backupArchiveSuccessFiles Compression.tar true DestKind.directory "x".data ∧
    "x.tar".data ∈ intermediateFiles Compression.tar true "x".data := by
  decide

/-! ## Object-store fetch-latest (`Destination::download_from_s3_to_tmp`,
src/configuration/destination.rs, lines 60-280) -/

/-- A listed S3 object: its key and its last-modified field. The outer
`Option` is the field's presence, the inner `Option` the outcome of
`NaiveDateTime::parse_from_str` (`None` = malformed); a parsed
timestamp is modelled in milliseconds so that sub-second fractions are
representable. -/
structure S3Object where
  key : Option Str
  rawLastModified : Option (Option Int)
deriving DecidableEq

/-- The `current_datetime_opt` of the loop: an absent or malformed
last-modified field yields `None`. -/
def S3Object.parsedTime (o : S3Object) : Option Int := o.rawLastModified.bind id

/-- Model of `chrono::Duration::num_seconds` on a duration given in
milliseconds: the number of whole seconds, truncated toward zero. -/
def numSeconds (ms : Int) : Int :=
  if 0 ≤ ms then ((ms.toNat / 1000 : Nat) : Int) else -(((-ms).toNat / 1000 : Nat) : Int)

theorem numSeconds_lt_zero_iff (d : Int) : numSeconds d < 0 ↔ d ≤ -1000 := by
  unfold numSeconds
  split <;> omega

/-- One iteration of the selection loop of `download_from_s3_to_tmp`:
objects without a key are skipped (`continue`); with no previous
timestamp a parsed object initialises the selection; otherwise the
current object replaces the selection exactly when
`last_known.sub(current).num_seconds() < 0`. -/
def selectStep (acc : Option Str × Option Int) (o : S3Object) : Option Str × Option Int :=
  match o.key with
  | Option.none => acc
  | Option.some k =>
    match acc.2 with
    | Option.some lastKnown =>
      match o.parsedTime with
      | Option.some current =>
        if numSeconds (lastKnown - current) < 0 then (some k, some current) else acc
      | Option.none => acc
    | Option.none =>
      match o.parsedTime with
      | Option.some current => (some k, some current)
      | Option.none => acc

/-- The selection fold of `download_from_s3_to_tmp` over the listed
objects (`last_known_key_opt`, `last_known_datetime_opt`), returning the
chosen key. -/
def selectLatestKey (contents : List S3Object) : Option Str :=
  (contents.foldl selectStep (Option.none, Option.none)).1

/-- Model of the prefix computation of `download_from_s3_to_tmp`:
`archive.name.find("{")` and the slice before it; a template starting
with a placeholder, or without any placeholder, yields no prefix. -/
def listPfx (name : Str) : Option Str :=
  match name.findIdx? (fun c => c == '\x7b') with
  | Option.some i => if i > 0 then some (name.take i) else Option.none
  | Option.none => Option.none

/-- Model of the success path of `download_from_s3_to_tmp` after the
listing (transport failures abort with a mapped error and are not
modelled here): no selectable key is `Ok(None)`; otherwise the chosen
key is downloaded under its own name and returned with the encryption
and compression suffixes stripped. -/
def downloadFromS3ToTmp (contents : Option (List S3Object)) (comp : Compression)
    (enc : Bool) : Except Str (Option Str) :=
  match contents with
  | Option.none => .ok Option.none
  | Option.some cs =>
    match selectLatestKey cs with
    | Option.none => .ok Option.none
    | Option.some key => .ok (some (restoreBaseName comp enc key))

theorem select_foldl_spec (cs : List S3Object) :
    ∀ acc : Option Str × Option Int,
      (∀ t : Int, (cs.foldl selectStep acc).2 = some t →
        ((acc.2 = some t ∧ (cs.foldl selectStep acc).1 = acc.1) ∨
          (∃ o ∈ cs, ∃ k, o.key = some k ∧ o.parsedTime = some t ∧
            (cs.foldl selectStep acc).1 = some k)) ∧
        (∀ o ∈ cs, o.key ≠ Option.none → ∀ u, o.parsedTime = some u → u < t + 1000) ∧
        (∀ t0, acc.2 = some t0 → t0 ≤ t)) ∧
      ((cs.foldl selectStep acc).2 = Option.none →
        acc.2 = Option.none ∧ (cs.foldl selectStep acc).1 = acc.1) := by
  induction cs with
  | nil =>
    intro acc
    constructor
    · intro t ht
      refine ⟨Or.inl ⟨ht, rfl⟩, ?_, ?_⟩
      · intro o2 ho2
        exact absurd ho2 (List.not_mem_nil _)
      · intro t0 h0
        have h1 : Option.some t0 = some t := h0.symm.trans ht
        injection h1 with h1
        omega
    · intro h
      exact ⟨h, rfl⟩
  | cons o rest ih =>
    intro acc
    have hfold : (o :: rest).foldl selectStep acc = rest.foldl selectStep (selectStep acc o) :=
      rfl
    have hstepval :
        (selectStep acc o = acc ∧
          (o.key = Option.none ∨ o.parsedTime = Option.none ∨
            (∃ u0 lk, o.parsedTime = some u0 ∧ acc.2 = some lk ∧
              ¬ numSeconds (lk - u0) < 0))) ∨
        (∃ k0 u0, o.key = some k0 ∧ o.parsedTime = some u0 ∧
          selectStep acc o = (some k0, some u0) ∧
          (acc.2 = Option.none ∨ ∃ lk, acc.2 = some lk ∧ numSeconds (lk - u0) < 0)) := by
      cases hk : o.key with
      | none => exact Or.inl ⟨by simp [selectStep, hk], Or.inl rfl⟩
      | some k0 =>
        cases hp : o.parsedTime with
        | none =>
          refine Or.inl ⟨?_, Or.inr (Or.inl rfl)⟩
          cases ha : acc.2 <;> simp [selectStep, hk, hp, ha]
        | some u0 =>
          cases ha : acc.2 with
          | none =>
            exact Or.inr ⟨k0, u0, rfl, rfl, by simp [selectStep, hk, hp, ha], Or.inl rfl⟩
          | some lk =>
            by_cases hc : numSeconds (lk - u0) < 0
            · exact Or.inr ⟨k0, u0, rfl, rfl, by simp [selectStep, hk, hp, ha, hc],
                Or.inr ⟨lk, rfl, hc⟩⟩
            · exact Or.inl ⟨by simp [selectStep, hk, hp, ha, hc], Or.inr (Or.inr ⟨u0, lk, rfl, rfl, hc⟩)⟩
    constructor
    · intro t ht
      rw [hfold] at ht
      rcases (ih (selectStep acc o)).1 t ht with ⟨horig, hmax, hmono⟩
      rcases hstepval with ⟨hv, hwhy⟩ | ⟨k0, u0, hk, hp, hv, hwhy⟩
      · rw [hv] at horig hmono
        refine ⟨?_, ?_, hmono⟩
        · rw [hfold, hv]
          rcases horig with h | ⟨o2, ho2, k, hk2, hp2, h1⟩
          · exact Or.inl h
          · exact Or.inr ⟨o2, List.mem_cons_of_mem _ ho2, k, hk2, hp2, h1⟩
        · intro o2 ho2 hkey u hu
          rcases List.mem_cons.mp ho2 with rfl | h2
          · rcases hwhy with hw | hw | ⟨u0, lk, hpu, ha, hc⟩
            · exact absurd hw hkey
            · rw [hw] at hu
              cases hu
            · have huu : Option.some u0 = some u := hpu.symm.trans hu
              injection huu with huu
              have hlkt : lk ≤ t := hmono lk ha
              have hnlt : ¬ lk - u0 ≤ -1000 := fun hx => hc ((numSeconds_lt_zero_iff _).mpr hx)
              omega
          · exact hmax o2 h2 hkey u hu
      · have ha1 : (selectStep acc o).1 = some k0 := by rw [hv]
        have ha2 : (selectStep acc o).2 = some u0 := by rw [hv]
        have hu0t : u0 ≤ t := hmono u0 ha2
        refine ⟨?_, ?_, ?_⟩
        · rw [hfold]
          rcases horig with ⟨h2, h1⟩ | ⟨o2, ho2, k, hk2, hp2, h1⟩
          · have h2x : Option.some u0 = some t := ha2.symm.trans h2
            injection h2x with h2x
            exact Or.inr ⟨o, List.mem_cons_self _ _, k0, hk, by rw [hp, h2x],
              h1.trans ha1⟩
          · exact Or.inr ⟨o2, List.mem_cons_of_mem _ ho2, k, hk2, hp2, h1⟩
        · intro o2 ho2 hkey u hu
          rcases List.mem_cons.mp ho2 with rfl | h2
          · have huu : Option.some u0 = some u := hp.symm.trans hu
            injection huu with huu
            omega
          · exact hmax o2 h2 hkey u hu
        · intro t0 h0
          rcases hwhy with ha | ⟨lk, ha, hc⟩
          · rw [ha] at h0
            cases h0
          · have h0l : Option.some t0 = some lk := h0.symm.trans ha
            injection h0l with h0l
            have hlk : lk - u0 ≤ -1000 := (numSeconds_lt_zero_iff _).mp hc
            omega
    · intro hn
      rw [hfold] at hn
      rcases (ih (selectStep acc o)).2 hn with ⟨h2, h1⟩
      rcases hstepval with ⟨hv, _⟩ | ⟨k0, u0, hk, hp, hv, hwhy⟩
      · rw [hv] at h2 h1
        exact ⟨h2, by rw [hfold, hv]; exact h1⟩
      · rw [hv] at h2
        exact absurd h2 (by simp)

theorem select_foldl_all_unparsed :
    ∀ (cs : List S3Object), (∀ o ∈ cs, o.parsedTime = Option.none) →
      ∀ acc, cs.foldl selectStep acc = acc := by
  intro cs
  induction cs with
  | nil =>
    intro _ acc
    rfl
  | cons o rest ih =>
    intro h acc
    have ho : o.parsedTime = Option.none := h o (List.mem_cons_self _ _)
    have hstep : selectStep acc o = acc := by
      cases hk : o.key with
      | none => simp [selectStep, hk]
      | some k0 => cases ha : acc.2 <;> simp [selectStep, hk, ho, ha]
    rw [List.foldl_cons, hstep]
    exact ih (fun o2 h2 => h o2 (List.mem_cons_of_mem _ h2)) acc

theorem findIdx_brace (b : Str) :
    ∀ a : Str, '\x7b' ∉ a →
      (a ++ '\x7b' :: b).findIdx? (fun c => c == '\x7b') = some a.length := by
  intro a
  induction a with
  | nil =>
    intro _
    simp
  | cons c a2 ih =>
    intro hmem
    have hcc : c ≠ '\x7b' := by
      intro h
      exact hmem (by rw [h]; exact List.mem_cons_self _ _)
    have h2 : '\x7b' ∉ a2 := fun hm => hmem (List.mem_cons_of_mem _ hm)
    rw [List.cons_append, List.findIdx?_cons, if_neg (by simp [hcc])]
    rw [List.findIdx?_start_succ, ih h2]
    simp

theorem listPfx_spec (a b : Str) (ha : '\x7b' ∉ a) :
    listPfx (a ++ '\x7b' :: b) = if a = [] then Option.none else some a := by
  unfold listPfx
  rw [findIdx_brace b a ha]
  cases a with
  | nil => simp
  | cons c a2 =>
    show (if (c :: a2).length > 0 then some (((c :: a2) ++ '\x7b' :: b).take (c :: a2).length)
      else Option.none) = some (c :: a2)
    rw [if_pos (by simp), List.take_left]

/-- C8 (amended): the object-store fetch-latest lists under the literal
prefix before the first placeholder (no prefix when the template starts
with it); a listed object replaces the current selection only when its
parsed timestamp is at least one whole second newer — the truncated
whole-second difference must be negative — so the selected object's
timestamp dominates every keyed parsed timestamp up to strictly less
than one second, equal timestamps keep the earlier-listed object, and
with whole-second timestamps the selected object has the maximum;
malformed or absent timestamps are never selected and never fail the
fetch, and the returned path is the downloaded key with the encryption
and compression suffixes stripped back to the base name. -/
theorem download_from_s3_to_tmp_spec :
    ∀ (cs : List S3Object) (a b : Str) (comp : Compression) (enc : Bool)
      (k1 k2 base : Str) (t : Int),
      ('\x7b' ∉ a → listPfx (a ++ '\x7b' :: b) = if a = [] then Option.none else some a) ∧
      (∀ k, selectLatestKey cs = some k →
        ∃ o ∈ cs, ∃ u, o.key = some k ∧ o.parsedTime = some u ∧
          ∀ o2 ∈ cs, o2.key ≠ Option.none → ∀ v, o2.parsedTime = some v → v < u + 1000) ∧
      (∀ k, selectLatestKey cs = some k →
        (∀ o ∈ cs, ∀ v, o.parsedTime = some v → (1000 : Int) ∣ v) →
        ∃ o ∈ cs, ∃ u, o.key = some k ∧ o.parsedTime = some u ∧
          ∀ o2 ∈ cs, o2.key ≠ Option.none → ∀ v, o2.parsedTime = some v → v ≤ u) ∧
      (selectLatestKey [⟨some k1, some (some t)⟩, ⟨some k2, some (some t)⟩] = some k1) ∧
      ((∀ o ∈ cs, o.parsedTime = Option.none) →
        downloadFromS3ToTmp (some cs) comp enc = Except.ok Option.none) ∧
      (selectLatestKey cs = some ((base ++ comp.toExtensionString) ++
          (if enc then encExtension else [])) →
        downloadFromS3ToTmp (some cs) comp enc = Except.ok (some base)) := by
  intro cs a b comp enc k1 k2 base t
  have hsel : ∀ k, selectLatestKey cs = some k →
      ∃ o ∈ cs, ∃ u, o.key = some k ∧ o.parsedTime = some u ∧
        ∀ o2 ∈ cs, o2.key ≠ Option.none → ∀ v, o2.parsedTime = some v → v < u + 1000 := by
    intro k hk
    unfold selectLatestKey at hk
    cases h2 : (cs.foldl selectStep (Option.none, Option.none)).2 with
    | none =>
      rcases (select_foldl_spec cs (Option.none, Option.none)).2 h2 with ⟨_, h1⟩
      rw [hk] at h1
      cases h1
    | some u =>
      rcases (select_foldl_spec cs (Option.none, Option.none)).1 u h2 with ⟨horig, hmax, _⟩
      rcases horig with ⟨hx, _⟩ | ⟨o2, ho2, k3, hk3, hp3, h13⟩
      · cases hx
      · have hkk : Option.some k3 = some k := h13.symm.trans hk
        injection hkk with hkk
        exact ⟨o2, ho2, u, by rw [← hkk]; exact hk3, hp3, hmax⟩
  refine ⟨fun ha => listPfx_spec a b ha, hsel, ?_, ?_, ?_, ?_⟩
  · intro k hk hdvd
    rcases hsel k hk with ⟨o2, ho2, u, hko, hpo, hmax⟩
    refine ⟨o2, ho2, u, hko, hpo, ?_⟩
    intro o3 ho3 hkey v hv
    have h1 := hmax o3 ho3 hkey v hv
    have hdu : (1000 : Int) ∣ u := hdvd o2 ho2 u hpo
    have hdv : (1000 : Int) ∣ v := hdvd o3 ho3 v hv
    omega
  · simp [selectLatestKey, selectStep, S3Object.parsedTime, numSeconds]
  · intro hall
    have hsl : selectLatestKey cs = Option.none := by
      unfold selectLatestKey
      rw [select_foldl_all_unparsed cs hall (Option.none, Option.none)]
    show (match selectLatestKey cs with
      | Option.none => Except.ok Option.none
      | Option.some key => Except.ok (some (restoreBaseName comp enc key))) =
      Except.ok Option.none
    rw [hsl]
  · intro hk
    show (match selectLatestKey cs with
      | Option.none => Except.ok Option.none
      | Option.some key => Except.ok (some (restoreBaseName comp enc key))) =
      Except.ok (some base)
    rw [hk]
    show Except.ok (some (restoreBaseName comp enc ((base ++ comp.toExtensionString) ++
      (if enc then encExtension else [])))) = Except.ok (some base)
    rw [restoreBaseName_roundtrip]

/-- Concrete listing for the fetch-latest witness: two whole-second
objects (the later-listed one four full seconds newer) and one object
with a malformed timestamp. -/
def s3ScenarioContents : List S3Object :=
  [⟨some "w-Mon.tar".data, some (some 1000)⟩,
    ⟨some "w-Tue.tar".data, some (some 5000)⟩,
    ⟨some "w-bad.tar".data, some Option.none⟩]

/-- Witness for C8 (amended): the newer whole-second object is
selected and dominates the listing, the literal prefix of the template
is extracted, and a downloaded chain filename is stripped back to its
base name. -/
theorem download_from_s3_to_tmp_spec_witness :
    (∃ o ∈ s3ScenarioContents, ∃ u : Int, o.key = some "w-Tue.tar".data ∧
      o.parsedTime = some u ∧
      ∀ o2 ∈ s3ScenarioContents, o2.key ≠ Option.none →
        ∀ v, o2.parsedTime = some v → v < u + 1000) ∧
    listPfx ("w-".data ++ '\x7b' :: "date:weekday\x7d.tar".data) = some "w-".data ∧
    downloadFromS3ToTmp (some [⟨some "daily.tar.bz2.enc".data, some (some 0)⟩])
        Compression.tarBZ2 true = Except.ok (some "daily".data) := by
  have h := download_from_s3_to_tmp_spec s3ScenarioContents "w-".data
    "date:weekday\x7d.tar".data Compression.tarBZ2 true "k1".data "k2".data "daily".data 0
  refine ⟨h.2.1 "w-Tue.tar".data (by decide), ?_, ?_⟩
  · rw [h.1 (by decide), if_neg (by decide)]
  · have h3 := (download_from_s3_to_tmp_spec [⟨some "daily.tar.bz2.enc".data, some (some 0)⟩]
      "w-".data "x".data Compression.tarBZ2 true "k1".data "k2".data "daily".data 0).2.2.2.2.2
    exact h3 (by decide)

/-- Counterexample for C8: an object 500 milliseconds newer than the
current selection does not replace it (the truncated whole-second
difference is 0, not negative), so the object with the newest parsed
last-modified timestamp is not the one selected. -/
theorem s3_subsecond_newer_not_selected :
    selectLatestKey [⟨some "a.tar".data, some (some 0)⟩,
        ⟨some "b.tar".data, some (some 500)⟩] = some "a.tar".data ∧
    ((0 : Int) < 500) ∧
    selectLatestKey [⟨some "a.tar".data, some (some 0)⟩,
        ⟨some "b.tar".data, some (some 500)⟩] ≠ some "b.tar".data := by
  decide

end RustyBackup
